import Mathlib

/-!
# Verification of the CPSC2020 preprocessing / beat-annotation matching pipeline

Shallow embedding of the core algorithms of the `cpsc2020` repository:

* `signal_processing/ecg_preprocess.py`: `preprocess_signal` and
  `parallel_preprocess_signal` (chunked parallel preprocessor).  The library
  filter stages (median baseline removal, FIR bandpass) and the pluggable QRS
  detector are abstracted as function parameters `F` (filter) and `D`
  (detector), exactly as the spec treats them (capability interfaces); the
  chunking/stitching arithmetic itself is translated line by line.
* `phase_one_legacy/data_reader.py`: `_ann_to_beat_ann` (epoch partitioning,
  augmentation, sorting, margin filtering) and `_ann_to_beat_ann_epoch_v3`
  (the per-beat greedy nearest matcher).

Sample indices are modelled as `Int` (numpy integer arrays), distances as
`Nat` (`np.abs`), and Python `IndexError`/`NameError` paths as `none` of an
`Option` result.  Python slices clamp at both ends, which the `drop/take`
translations reproduce.
-/

namespace CPSC2020

/-- Beat label: `'N'` (normal), `'S'` (supraventricular premature),
`'V'` (ventricular premature). -/
inductive Label where
  | N
  | S
  | V
deriving DecidableEq, Repr

/-- The annotation of `anns` nearest to beat `r`, first one on ties:
`ann[np.argmin(np.abs(r - ann))]` in `_ann_to_beat_ann_epoch_v3`
(`np.argmin` returns the first index attaining the minimum).
`none` iff `anns` is empty. -/
def argminD (r : Int) : List Int → Option Int
  | [] => none
  | a :: rest =>
    match argminD r rest with
    | none => some a
    | some b => if (r - a).natAbs ≤ (r - b).natAbs then some a else some b

/-- Minimal distance `np.min(np.abs(r - ann))`; `none` plays the
`np.array([np.inf])` placeholder used when the annotation list is empty. -/
def minD (r : Int) (anns : List Int) : Option Nat :=
  (argminD r anns).map (fun b => (r - b).natAbs)

/-- `x ≤ y` on distances where `none` is `np.inf`. -/
def leI : Option Nat → Option Nat → Bool
  | none, none => true
  | none, some _ => false
  | some _, none => true
  | some x, some y => x ≤ y

/-- The label `_ann_to_beat_ann_epoch_v3` assigns to the single beat `r`:
`np.argmin([min_dist_spb, min_dist_pvc, bias_thr])` with first-index
tie-breaking decides among S (index 0), V (index 1) and N (index 2). -/
def v3Label (bias : Nat) (spb pvc : List Int) (r : Int) : Label :=
  if leI (minD r spb) (minD r pvc) && leI (minD r spb) (some bias) then .S
  else if leI (minD r pvc) (some bias) then .V
  else .N

/-- Result of one epoch of the v3 matcher: per-beat labels plus the lists of
matched SPB / PVC annotation indices (appended in beat order, duplicates
retained, exactly as `ann_matched[...].append(...)` does). -/
structure EpochResult where
  beat_ann : List Label
  matchedS : List Int
  matchedV : List Int
deriving DecidableEq, Repr

/-- Shallow embedding of `_ann_to_beat_ann_epoch_v3`: each beat is labelled by
`v3Label`; whenever the label is S (resp. V) the nearest SPB (resp. PVC)
annotation is appended to the matched list.  The annotation sets are never
shrunk during the pass. -/
def annToBeatAnnEpochV3 (rpeaks spb pvc : List Int) (bias : Nat) : EpochResult where
  beat_ann := rpeaks.map (v3Label bias spb pvc)
  matchedS := rpeaks.filterMap (fun r =>
    if v3Label bias spb pvc r = .S then argminD r spb else none)
  matchedV := rpeaks.filterMap (fun r =>
    if v3Label bias spb pvc r = .V then argminD r pvc else none)

/-- One epoch's parameters in `_ann_to_beat_ann`: the beat slice plus the
annotations restricted to `[rpeaks[0] - bias_thr - 1, rpeaks[-1] + bias_thr + 1)`. -/
structure Epoch where
  rp : List Int
  annS : List Int
  annV : List Int
deriving DecidableEq, Repr

/-- Python slice `xs[s:t]` for `0 ≤ s ≤ t` (clamping at both ends). -/
def pySlice (xs : List Int) (s t : Nat) : List Int :=
  (xs.drop s).take (t - s)

/-- `len(np.where(rpeaks < m)[0])`: number of beats strictly below `m`. -/
def countBelow (rpeaks : List Int) (m : Int) : Nat :=
  (rpeaks.filter (fun r => decide (r < m))).length

/-- The split-index list built at the top of `_ann_to_beat_ann`:
`[0]`, then `len(np.where(rpeaks < i*one_hour)[0]) + 1` for
`i in range(1, int(rpeaks[-1] + bias_thr) // one_hour)`, then `len(rpeaks)`
appended when the list is still `[0]` or its last entry is `< len(rpeaks)`. -/
def hourBase (rpeaks : List Int) (bias oh : Nat) (lastR : Int) : List Nat :=
  0 :: (List.range' 1 (((lastR + (bias : Int)).toNat) / oh - 1)).map
    (fun i => countBelow rpeaks ((i * oh : Nat) : Int) + 1)

def hourSplits (rpeaks : List Int) (bias oh : Nat) (lastR : Int) : List Nat :=
  if (hourBase rpeaks bias oh lastR).length = 1
      ∨ (hourBase rpeaks bias oh lastR).getLastD 0 < rpeaks.length
  then hourBase rpeaks bias oh lastR ++ [rpeaks.length]
  else hourBase rpeaks bias oh lastR

/-- Consecutive slices `rpeaks[s_idx : s_(idx+1)]` over the split list. -/
def segsFrom (xs : List Int) : Nat → List Nat → List (List Int)
  | _, [] => []
  | s, t :: ts => pySlice xs s t :: segsFrom xs t ts

/-- The per-epoch beat slices of `_ann_to_beat_ann` (adjacent pairs of the
split-index list). -/
def epochSlices (rpeaks : List Int) (bias oh : Nat) (lastR : Int) : List (List Int) :=
  segsFrom rpeaks 0 (hourSplits rpeaks bias oh lastR).tail

/-- `mkEpoch` builds one entry of `epoch_params`; `none` models the
`IndexError` raised by `p['rpeaks'][0]` on an empty beat slice. -/
def mkEpoch (spb pvc : List Int) (bias : Nat) (rp : List Int) : Option Epoch :=
  match rp.head?, rp.getLast? with
  | some f, some l =>
    some { rp := rp
           annS := spb.filter (fun a =>
             decide (f - (bias : Int) - 1 ≤ a ∧ a < l + (bias : Int) + 1))
           annV := pvc.filter (fun a =>
             decide (f - (bias : Int) - 1 ≤ a ∧ a < l + (bias : Int) + 1)) }
  | _, _ => none

/-- Run an `Option`-valued function over a list, failing if any element fails. -/
def mapOpt (f : List Int → Option Epoch) : List (List Int) → Option (List Epoch)
  | [] => some []
  | x :: xs =>
    match f x, mapOpt f xs with
    | some y, some ys => some (y :: ys)
    | _, _ => none

/-- The epoch-parameter construction of `_ann_to_beat_ann` (lines 550-572):
hour splits, beat slices, per-epoch annotation windows; `none` models the
`rpeaks[-1]` IndexError on an empty beat list or the `p['rpeaks'][0]`
IndexError on an empty hour slice. -/
def buildEpochs (rpeaks spb pvc : List Int) (bias oh : Nat) : Option (List Epoch) :=
  match rpeaks.getLast? with
  | none => none
  | some lastR => mapOpt (mkEpoch spb pvc bias) (epochSlices rpeaks bias oh lastR)

/-- `[a for a in anns if a not in matched]`. -/
def notMatched (anns matched : List Int) : List Int :=
  anns.filter (fun a => decide (¬ a ∈ matched))

/-- Comparison of (location, label) pairs by location. -/
def pairLE (p q : Int × Label) : Prop := p.1 ≤ q.1

instance : DecidableRel pairLE := fun p q => inferInstanceAs (Decidable (p.1 ≤ q.1))

instance : IsTotal (Int × Label) pairLE := ⟨fun p q => le_total p.1 q.1⟩

instance : IsTrans (Int × Label) pairLE := ⟨fun _ _ _ h1 h2 => le_trans h1 h2⟩

/-- Reordering of the concatenated (location, label) pairs by location,
modelling the `np.argsort(augmented_rpeaks)` reindexing of both arrays
(the relative order of equal locations is not specified by `np.argsort`'s
unstable sort; a stable comparison sort is one admissible realisation). -/
def sortPairs (ps : List (Int × Label)) : List (Int × Label) :=
  ps.insertionSort pairLE

/-- Output of `_ann_to_beat_ann` (with auxiliary data): the augmented,
sorted, margin-filtered beat locations, their labels, and the matched
annotation lists. -/
structure MatcherResult where
  rpeaks_aug : List Int
  beat_ann : List Label
  matchedS : List Int
  matchedV : List Int
deriving DecidableEq, Repr

/-- Lines 593-613 of `_ann_to_beat_ann`: collect unmatched annotations from
the full sets, append them (with their known labels) to the beat list,
sort by location, and drop entries outside `[beat_winL, len(sig) - beat_winR)`. -/
def postProcess (rpeaks spb pvc : List Int) (winL winR sigLen : Int)
    (labels : List Label) (mS mV : List Int) : MatcherResult :=
  let nS := notMatched spb mS
  let nV := notMatched pvc mV
  let pairs := rpeaks.zip labels
    ++ nS.map (fun a => (a, Label.S)) ++ nV.map (fun a => (a, Label.V))
  let valid := (sortPairs pairs).filter (fun p =>
    decide (winL ≤ p.1 ∧ p.1 < sigLen - winR))
  { rpeaks_aug := valid.map Prod.fst
    beat_ann := valid.map Prod.snd
    matchedS := mS
    matchedV := mV }

/-- Shallow embedding of `_ann_to_beat_ann` (the `augment=True` path, using
the v3 epoch matcher): hour-epoch partitioning, per-epoch v3 matching,
concatenation of per-epoch results, then augmentation/sort/margin filtering.
`winL`/`winR` are `BaseCfg.beat_winL`/`beat_winR` and `sigLen` is
`len(raw_sig)`. -/
def annToBeatAnn (rpeaks spb pvc : List Int) (bias fs : Nat)
    (winL winR sigLen : Int) : Option MatcherResult :=
  (buildEpochs rpeaks spb pvc bias (fs * 3600)).map (fun eps =>
    let results := eps.map (fun e => annToBeatAnnEpochV3 e.rp e.annS e.annV bias)
    postProcess rpeaks spb pvc winL winR sigLen
      (results.map (·.beat_ann)).flatten
      (results.map (·.matchedS)).flatten
      (results.map (·.matchedV)).flatten)

/-- Spec-side single-pass matcher (§4.6 read without the scalability
partitioning): the v3 matcher run once over the whole beat sequence against
the full annotation sets, followed by the same augmentation/sort/filter.
Reference point of the epoch-refinement claim. -/
def wholeMatch (rpeaks spb pvc : List Int) (bias : Nat)
    (winL winR sigLen : Int) : MatcherResult :=
  let res := annToBeatAnnEpochV3 rpeaks spb pvc bias
  postProcess rpeaks spb pvc winL winR sigLen res.beat_ann res.matchedS res.matchedV

section Preprocess

variable {α : Type}

/-- `preprocess_signal` at the configured sampling rate (no resampling):
the baseline-removal and bandpass stages are the abstract filter `F`
(library calls, length-preserving per §4.1-4.2) and the QRS detector is the
capability `D` (§4.3), returning window-local beat indices. -/
def preprocessSignal (F : List α → List α) (D : List α → List Nat)
    (raw : List α) : List α × List Nat :=
  (F raw, D raw)

/-- The window list `l_epoch`: `raw_ecg[idx*epoch_forward : idx*epoch_forward + epoch_len]`. -/
def mkWindows (epochLen forward : Nat) (raw : List α) (n : Nat) : List (List α) :=
  (List.range n).map (fun i => (raw.drop (i * forward)).take epochLen)

/-- Python `x[h : -h]`: empty when `h = 0` (`-0` is `0`), otherwise drop `h`
samples from both ends. -/
def interiorSlice (xs : List α) (h : Nat) : List α :=
  if h = 0 then [] else (xs.drop h).take (xs.length - 2 * h)

/-- Beat contributions of the interior windows (the `for idx, e in
enumerate(result[1:])` loop): window number `idx` keeps local indices in
`[epoch_overlap_half, epoch_len - epoch_overlap_half)` shifted by
`idx * epoch_forward`. -/
def interiorRpeaks (epochLen overlapHalf forward : Nat) :
    Nat → List (List α × List Nat) → List Nat
  | _, [] => []
  | idx, e :: es =>
    (e.2.filter (fun r =>
        decide (overlapHalf ≤ r ∧ r < epochLen - overlapHalf))).map
      (fun r => idx * forward + r)
    ++ interiorRpeaks epochLen overlapHalf forward (idx + 1) es

/-- The tail window's own retained beats translated to global coordinates:
what line 209 of `parallel_preprocess_signal` computes as `tail_rpeaks`
(and line 210 is evidently meant to append). -/
def tailKeptRpeaks (overlapHalf forward mainLen : Nat) (tailR : List Nat) : List Nat :=
  (tailR.filter (fun r => decide (overlapHalf ≤ r))).map
    (fun r => mainLen * forward + r)

/-- The window list built by `parallel_preprocess_signal` (lines 175-187):
`l_epoch` plus the tail-keeping policy — a tail shorter than `tailThr`
(`30 * fs` samples) is appended to the last window, a longer one becomes its
own window starting `epoch_overlap` samples earlier.  `none` models the
`l_epoch[-1]` IndexError when the window list is empty. -/
def windowsOf (epochLen overlapHalf tailThr : Nat) (keepTail : Bool)
    (raw : List α) : Option (List (List α)) :=
  let overlap := 2 * overlapHalf
  let forward := epochLen - overlap
  let n := (raw.length - overlap) / forward
  let windows0 := mkWindows epochLen forward raw n
  if keepTail then
    let tailStart := forward * n + overlap
    if raw.length - tailStart < tailThr then
      match windows0.getLast? with
      | none => none
      | some lastW => some (windows0.dropLast ++ [lastW ++ raw.drop tailStart])
    else some (windows0 ++ [raw.drop (tailStart - overlap)])
  else some windows0

/-- The stitching loop of `parallel_preprocess_signal` (lines 196-210): keep
`[0, epoch_len - overlap_half)` of the first window, the interior of every
following main window, and (when the tail policy is on) the tail's filtered
samples from `overlap_half` on.  `none` models `result[0]` on an empty list
and the `epoch_rpeaks` NameError when the interior loop never ran.
NOTE: line 210 of the source appends `epoch_rpeaks` — the *last interior
window's* retained beats, shifted by `len(result) * epoch_forward` — instead
of the `tail_rpeaks` computed on line 209; the embedding reproduces this
faithfully. -/
def stitch (epochLen overlapHalf forward : Nat) (keepTail : Bool)
    (results : List (List α × List Nat)) : Option (List α × List Nat) :=
  match (if keepTail then results.dropLast else results) with
  | [] => none
  | r0 :: rest =>
    let filtered1 := r0.1.take (epochLen - overlapHalf)
      ++ (rest.map (fun e => interiorSlice e.1 overlapHalf)).flatten
    let rpeaks1 := r0.2.filter (fun r => decide (r < epochLen - overlapHalf))
      ++ interiorRpeaks epochLen overlapHalf forward 1 rest
    if keepTail then
      match results.getLast?, rest.getLast? with
      | some tl, some lastE =>
        some (filtered1 ++ tl.1.drop overlapHalf,
          rpeaks1 ++ (lastE.2.filter (fun r =>
              decide (overlapHalf ≤ r ∧ r < epochLen - overlapHalf))).map
            (fun r => (r0 :: rest).length * forward + r))
      | _, _ => none
    else some (filtered1, rpeaks1)

/-- Shallow embedding of `parallel_preprocess_signal`: delegate short
signals (line 172-173), otherwise window the signal, run the single-segment
preprocessor on every window, and stitch. -/
def parallelPreprocessSignal (F : List α → List α) (D : List α → List Nat)
    (epochLen overlapHalf tailThr : Nat) (keepTail : Bool) (raw : List α) :
    Option (List α × List Nat) :=
  if raw.length ≤ 3 * epochLen then some (preprocessSignal F D raw)
  else
    (windowsOf epochLen overlapHalf tailThr keepTail raw).bind (fun windows =>
      stitch epochLen overlapHalf (epochLen - 2 * overlapHalf) keepTail
        (windows.map (preprocessSignal F D)))

/-- 45-sample test signal `0, 1, ..., 44` used to exercise the tail-stitching
path with `epoch_len = 10`, `overlap_half = 1`, tail threshold `5`. -/
def raw45 : List Int := (List.range 45).map Int.ofNat

end Preprocess

/-! ## Helper lemmas about the nearest-annotation search -/

lemma argminD_cons (r a : Int) (rest : List Int) :
    argminD r (a :: rest) =
      match argminD r rest with
      | none => some a
      | some b => if (r - a).natAbs ≤ (r - b).natAbs then some a else some b := rfl

lemma argminD_eq_none {r : Int} {l : List Int} : argminD r l = none ↔ l = [] := by
  cases l with
  | nil => simp [argminD]
  | cons a rest =>
    simp only [argminD_cons]
    cases argminD r rest
    · simp
    · simp only []
      constructor
      · intro h; split at h <;> simp at h
      · intro h; simp at h

lemma argminD_mem {r : Int} : ∀ {l : List Int} {b : Int}, argminD r l = some b → b ∈ l := by
  intro l
  induction l with
  | nil => intro b h; simp [argminD] at h
  | cons a rest ih =>
    intro b h
    rw [argminD_cons] at h
    cases hrec : argminD r rest with
    | none => rw [hrec] at h; simp only [Option.some.injEq] at h; simp [h]
    | some c =>
      rw [hrec] at h
      simp only [] at h
      by_cases hle : (r - a).natAbs ≤ (r - c).natAbs
      · rw [if_pos hle] at h; simp only [Option.some.injEq] at h; simp [h]
      · rw [if_neg hle] at h; simp only [Option.some.injEq] at h
        exact List.mem_cons_of_mem a (ih (h ▸ hrec))

lemma argminD_le {r : Int} :
    ∀ {l : List Int} {b : Int}, argminD r l = some b →
      ∀ x ∈ l, (r - b).natAbs ≤ (r - x).natAbs := by
  intro l
  induction l with
  | nil => intro b h; simp [argminD] at h
  | cons a rest ih =>
    intro b h x hx
    rw [argminD_cons] at h
    rcases List.mem_cons.mp hx with rfl | hx'
    · cases hrec : argminD r rest with
      | none => rw [hrec] at h; simp only [Option.some.injEq] at h; omega
      | some c =>
        rw [hrec] at h; simp only [] at h
        by_cases hle : (r - x).natAbs ≤ (r - c).natAbs
        · rw [if_pos hle] at h; simp only [Option.some.injEq] at h; omega
        · rw [if_neg hle] at h; simp only [Option.some.injEq] at h; subst h; omega
    · cases hrec : argminD r rest with
      | none =>
        rw [argminD_eq_none.mp hrec] at hx'
        simp at hx'
      | some c =>
        have hc := ih hrec x hx'
        rw [hrec] at h; simp only [] at h
        by_cases hle : (r - a).natAbs ≤ (r - c).natAbs
        · rw [if_pos hle] at h; simp only [Option.some.injEq] at h; omega
        · rw [if_neg hle] at h; simp only [Option.some.injEq] at h; omega

/-- Existence of an annotation within `bias` of `r`, phrased on `minD`. -/
lemma leI_minD_iff {bias : Nat} {r : Int} {l : List Int} :
    leI (minD r l) (some bias) = true ↔ ∃ a ∈ l, (r - a).natAbs ≤ bias := by
  cases h : argminD r l with
  | none =>
    have hl : l = [] := argminD_eq_none.mp h
    subst hl
    simp [minD, argminD, leI]
  | some b =>
    simp only [minD, h, Option.map_some', leI, decide_eq_true_eq]
    constructor
    · intro hle
      exact ⟨b, argminD_mem h, hle⟩
    · rintro ⟨a, ha, hle⟩
      have := argminD_le h a ha
      omega

/-- Some SPB annotation within `bias` of `r` ⟹ `r` is matched (never N). -/
lemma v3Label_ne_N_left {bias : Nat} {spb pvc : List Int} {r : Int}
    (h : leI (minD r spb) (some bias) = true) : v3Label bias spb pvc r ≠ .N := by
  unfold v3Label
  by_cases hSV : leI (minD r spb) (minD r pvc) = true
  · rw [hSV, h]; simp
  · have hSV' : leI (minD r spb) (minD r pvc) = false := by
      cases hb : leI (minD r spb) (minD r pvc)
      · rfl
      · exact absurd hb hSV
    have hV : leI (minD r pvc) (some bias) = true := by
      cases hA : minD r spb with
      | none => rw [hA] at h; simp [leI] at h
      | some d =>
        cases hB : minD r pvc with
        | none => rw [hA, hB] at hSV'; simp [leI] at hSV'
        | some e =>
          rw [hA, hB] at hSV'
          rw [hA] at h
          simp only [leI, decide_eq_true_eq] at h ⊢
          simp only [leI, decide_eq_false_iff_not] at hSV'
          omega
    rw [hSV', hV]
    simp

/-- Some PVC annotation within `bias` of `r` ⟹ `r` is matched (never N). -/
lemma v3Label_ne_N_right {bias : Nat} {spb pvc : List Int} {r : Int}
    (h : leI (minD r pvc) (some bias) = true) : v3Label bias spb pvc r ≠ .N := by
  unfold v3Label
  by_cases hc : (leI (minD r spb) (minD r pvc) && leI (minD r spb) (some bias)) = true
  · rw [hc]; simp
  · have hc' : (leI (minD r spb) (minD r pvc) && leI (minD r spb) (some bias)) = false := by
      cases hb : (leI (minD r spb) (minD r pvc) && leI (minD r spb) (some bias))
      · rfl
      · exact absurd hb hc
    rw [hc', h]
    simp

/-- No annotation within `bias` of `r` ⟹ `r` is labelled Normal. -/
lemma v3Label_eq_N {bias : Nat} {spb pvc : List Int} {r : Int}
    (hS : leI (minD r spb) (some bias) = false)
    (hV : leI (minD r pvc) (some bias) = false) : v3Label bias spb pvc r = .N := by
  unfold v3Label
  rw [hS, hV]
  simp

/-! ## Claim theorems -/

/-- **C1** (counterexample): a beat exactly `bias_thr` samples from its
nearest (SPB) annotation is *matched* with label S and the annotation is
consumed, not labelled Normal — `np.argmin` breaks the tie
`min_dist = bias_thr` toward index 0. -/
theorem C1_counterexample :
    (100 - 110 : Int).natAbs = 10 ∧
    annToBeatAnnEpochV3 [100] [110] [] 10 = ⟨[Label.S], [110], []⟩ ∧
    Label.S ≠ Label.N := by decide

/-- **C1** (amended): the matching boundary of the v3 matcher is closed, not
open: a beat `r` is labelled Normal iff every SPB and every PVC annotation is
*strictly* more than `bias_thr` samples away; in particular a beat at distance
exactly `bias_thr` (and a fortiori `bias_thr - 1`) from some annotation is
matched (labelled S or V). -/
theorem C1_closed_boundary (bias : Nat) (spb pvc : List Int) (r : Int) :
    v3Label bias spb pvc r = .N ↔
      (∀ a ∈ spb, bias < (r - a).natAbs) ∧ (∀ a ∈ pvc, bias < (r - a).natAbs) := by
  constructor
  · intro h
    constructor
    · intro a ha
      by_contra hle
      exact v3Label_ne_N_left (leI_minD_iff.mpr ⟨a, ha, by omega⟩) h
    · intro a ha
      by_contra hle
      exact v3Label_ne_N_right (leI_minD_iff.mpr ⟨a, ha, by omega⟩) h
  · rintro ⟨hS, hV⟩
    have hS' : leI (minD r spb) (some bias) = false := by
      cases hb : leI (minD r spb) (some bias)
      · rfl
      · rcases leI_minD_iff.mp hb with ⟨a, ha, hle⟩
        have := hS a ha; omega
    have hV' : leI (minD r pvc) (some bias) = false := by
      cases hb : leI (minD r pvc) (some bias)
      · rfl
      · rcases leI_minD_iff.mp hb with ⟨a, ha, hle⟩
        have := hV a ha; omega
    exact v3Label_eq_N hS' hV'

/-- **C1** (witness): at `bias_thr = 10`, a beat 11 samples from the only
annotation is labelled Normal. -/
theorem C1_witness : v3Label 10 [111] [] 100 = .N :=
  (C1_closed_boundary 10 [111] [] 100).mpr (by decide)

/-- **C4**: the v3 matcher never removes a matched annotation from candidacy
within a pass: beats 100 and 105 both match the single PVC annotation 103
(`bias_thr = 10`); it is recorded twice in the matched list and both beats
get label V. -/
theorem C4_annotation_reuse :
    annToBeatAnnEpochV3 [100, 105] [] [103] 10
      = ⟨[Label.V, Label.V], [], [103, 103]⟩ ∧
    List.count (103 : Int) [103, 103] = 2 := by decide

/-- **C7**: when the signal is at most `3 * epoch_len` samples long, the
chunked parallel preprocessor returns exactly the single-segment
preprocessor's result on the whole signal. -/
theorem C7_delegates {α : Type} (F : List α → List α) (D : List α → List Nat)
    (epochLen overlapHalf tailThr : Nat) (keepTail : Bool) (raw : List α)
    (h : raw.length ≤ 3 * epochLen) :
    parallelPreprocessSignal F D epochLen overlapHalf tailThr keepTail raw
      = some (preprocessSignal F D raw) := by
  unfold parallelPreprocessSignal
  simp [h]

/-- **C7** (witness). -/
theorem C7_witness :
    parallelPreprocessSignal (α := Int) id (fun _ => []) 10 1 5 true [0, 1, 2]
      = some (preprocessSignal id (fun _ => []) [0, 1, 2]) :=
  C7_delegates id (fun _ => []) 10 1 5 true [0, 1, 2] (by decide)

/-- **C8**: `_ann_to_beat_ann` performs no sortedness validation: on the
non-monotonic beat sequence `[300, 100]` it completes the whole matching
pass and returns a result instead of rejecting the input. -/
theorem C8_no_rejection :
    ¬ List.Pairwise (· ≤ ·) ([300, 100] : List Int) ∧
    annToBeatAnn [300, 100] [150] [] 40 400 0 0 100000
      = some ⟨[100, 150, 300], [Label.N, Label.S, Label.N], [], []⟩ := by decide

/-- **C2** (counterexample): with margins `beat_winL = beat_winR = 100`, the
unmatched SPB annotation at index 5 is inserted into the augmented sequence
and then dropped by the boundary-margin filter: it appears neither in the
matched set nor in the final augmented output. -/
theorem C2_counterexample :
    annToBeatAnn [200] [5] [] 40 400 100 100 10000
      = some ⟨[200], [Label.N], [], []⟩ ∧
    (5 : Int) ∉ ([] : List Int) ∧ (5 : Int) ∉ ([200] : List Int) := by decide

/-- **C9** (counterexample): when the same index (5000) occurs in both SPB and
PVC and matches no beat, both copies are inserted, so the augmented
beat-location list contains a duplicate and is not strictly increasing. -/
theorem C9_counterexample :
    annToBeatAnn [100] [5000] [5000] 40 400 0 0 100000
      = some ⟨[100, 5000, 5000], [Label.N, Label.S, Label.V], [], []⟩ ∧
    ¬ List.Pairwise (· < ·) ([100, 5000, 5000] : List Int) := by decide

/-- **C3**: on `raw45` (45 samples, `epoch_len = 10`, `overlap_half = 1`,
tail threshold 5, detector returning each window's next-to-last index) the
code's tail contribution is `40` — the last *interior* window's retained
beats re-offset (`epoch_rpeaks` reused on source line 210) — while the tail
window's own retained beats translate to `43` (`tail_rpeaks`, computed on
line 209 but never used); the true tail beat 43 is missing from the output. -/
theorem C3_tail_bug :
    parallelPreprocessSignal (α := Int) id (fun w => [w.length - 2]) 10 1 5 true raw45
      = some (raw45, [8, 16, 24, 32, 40]) ∧
    tailKeptRpeaks 1 8 4 ((fun (w : List Int) => [w.length - 2]) (raw45.drop 32)) = [43] ∧
    (43 : Nat) ∉ [8, 16, 24, 32, 40] := by decide

lemma zip_fst_snd {β γ : Type} : ∀ l : List (β × γ), (l.map Prod.fst).zip (l.map Prod.snd) = l
  | [] => rfl
  | p :: t => by simp [zip_fst_snd t]

lemma annToBeatAnn_eq {rpeaks spb pvc : List Int} {bias fs : Nat}
    {winL winR sigLen : Int} {res : MatcherResult}
    (hres : annToBeatAnn rpeaks spb pvc bias fs winL winR sigLen = some res) :
    ∃ eps, buildEpochs rpeaks spb pvc bias (fs * 3600) = some eps ∧
      res = postProcess rpeaks spb pvc winL winR sigLen
        ((eps.map (fun e => annToBeatAnnEpochV3 e.rp e.annS e.annV bias)).map (·.beat_ann)).flatten
        ((eps.map (fun e => annToBeatAnnEpochV3 e.rp e.annS e.annV bias)).map (·.matchedS)).flatten
        ((eps.map (fun e => annToBeatAnnEpochV3 e.rp e.annS e.annV bias)).map (·.matchedV)).flatten := by
  unfold annToBeatAnn at hres
  rcases Option.map_eq_some'.mp hres with ⟨eps, h1, h2⟩
  exact ⟨eps, h1, h2.symm⟩

lemma postProcess_matchedS (rpeaks spb pvc : List Int) (winL winR sigLen : Int)
    (L : List Label) (mS mV : List Int) :
    (postProcess rpeaks spb pvc winL winR sigLen L mS mV).matchedS = mS := rfl

lemma postProcess_matchedV (rpeaks spb pvc : List Int) (winL winR sigLen : Int)
    (L : List Label) (mS mV : List Int) :
    (postProcess rpeaks spb pvc winL winR sigLen L mS mV).matchedV = mV := rfl

/-- The final (location, label) pair list of `postProcess`. -/
lemma postProcess_zip (rpeaks spb pvc : List Int) (winL winR sigLen : Int)
    (L : List Label) (mS mV : List Int) :
    (postProcess rpeaks spb pvc winL winR sigLen L mS mV).rpeaks_aug.zip
        (postProcess rpeaks spb pvc winL winR sigLen L mS mV).beat_ann
      = (sortPairs (rpeaks.zip L
          ++ (notMatched spb mS).map (fun a => (a, Label.S))
          ++ (notMatched pvc mV).map (fun a => (a, Label.V)))).filter (fun p =>
            decide (winL ≤ p.1 ∧ p.1 < sigLen - winR)) :=
  zip_fst_snd _

lemma mem_notMatched {a : Int} {anns matched : List Int} :
    a ∈ notMatched anns matched ↔ a ∈ anns ∧ a ∉ matched := by
  simp [notMatched]

/-- **C2** (amended): before the boundary-margin filter every annotation is
accounted for exactly once — it is matched, or inserted exactly once (for a
duplicate-free annotation set) as an unmatched entry; an inserted annotation
whose location lies within `[beat_winL, len(sig) - beat_winR)` survives to
the final augmented output with its known label. -/
theorem C2_completeness_upto_margins (rpeaks spb pvc : List Int) (bias fs : Nat)
    (winL winR sigLen : Int) (res : MatcherResult)
    (hres : annToBeatAnn rpeaks spb pvc bias fs winL winR sigLen = some res) :
    (∀ a ∈ spb, a ∈ res.matchedS ∨ a ∈ notMatched spb res.matchedS) ∧
    (∀ a : Int, ¬(a ∈ res.matchedS ∧ a ∈ notMatched spb res.matchedS)) ∧
    (spb.Nodup → (notMatched spb res.matchedS).Nodup) ∧
    (∀ a ∈ notMatched spb res.matchedS, winL ≤ a → a < sigLen - winR →
      (a, Label.S) ∈ res.rpeaks_aug.zip res.beat_ann) ∧
    (∀ a ∈ pvc, a ∈ res.matchedV ∨ a ∈ notMatched pvc res.matchedV) ∧
    (∀ a : Int, ¬(a ∈ res.matchedV ∧ a ∈ notMatched pvc res.matchedV)) ∧
    (pvc.Nodup → (notMatched pvc res.matchedV).Nodup) ∧
    (∀ a ∈ notMatched pvc res.matchedV, winL ≤ a → a < sigLen - winR →
      (a, Label.V) ∈ res.rpeaks_aug.zip res.beat_ann) := by
  obtain ⟨eps, heps, hpp⟩ := annToBeatAnn_eq hres
  subst hpp
  rw [postProcess_matchedS, postProcess_matchedV, postProcess_zip]
  generalize ((eps.map (fun e => annToBeatAnnEpochV3 e.rp e.annS e.annV bias)).map
    (·.matchedS)).flatten = mS
  generalize ((eps.map (fun e => annToBeatAnnEpochV3 e.rp e.annS e.annV bias)).map
    (·.matchedV)).flatten = mV
  generalize ((eps.map (fun e => annToBeatAnnEpochV3 e.rp e.annS e.annV bias)).map
    (·.beat_ann)).flatten = L
  refine ⟨?_, ?_, ?_, ?_, ?_, ?_, ?_, ?_⟩
  · intro a ha
    by_cases hm : a ∈ mS
    · exact Or.inl hm
    · exact Or.inr (mem_notMatched.mpr ⟨ha, hm⟩)
  · rintro a ⟨h1, h2⟩
    exact (mem_notMatched.mp h2).2 h1
  · intro hnd
    exact hnd.filter _
  · intro a ha hL hR
    refine List.mem_filter.mpr ⟨?_, by simp [hL, hR]⟩
    refine (List.perm_insertionSort pairLE _).mem_iff.mpr ?_
    refine List.mem_append.mpr (Or.inl (List.mem_append.mpr (Or.inr ?_)))
    exact List.mem_map_of_mem _ ha
  · intro a ha
    by_cases hm : a ∈ mV
    · exact Or.inl hm
    · exact Or.inr (mem_notMatched.mpr ⟨ha, hm⟩)
  · rintro a ⟨h1, h2⟩
    exact (mem_notMatched.mp h2).2 h1
  · intro hnd
    exact hnd.filter _
  · intro a ha hL hR
    refine List.mem_filter.mpr ⟨?_, by simp [hL, hR]⟩
    refine (List.perm_insertionSort pairLE _).mem_iff.mpr ?_
    refine List.mem_append.mpr (Or.inr ?_)
    exact List.mem_map_of_mem _ ha

/-- **C2** (witness): the unmatched in-margin SPB annotation 150 appears with
label S in the final augmented output. -/
theorem C2_witness :
    ((150 : Int), Label.S) ∈ (([150, 200] : List Int).zip [Label.S, Label.N]) :=
  (C2_completeness_upto_margins [200] [150] [] 40 400 100 100 10000
      ⟨[150, 200], [Label.S, Label.N], [], []⟩ (by decide)).2.2.2.1
    150 (by decide) (by decide) (by decide)

/-! ## Helper lemmas for the stitching loop -/

lemma mem_of_getLast?_eq {β : Type} {l : List β} {a : β} (h : l.getLast? = some a) :
    a ∈ l := by
  have hmem : a ∈ l.getLast? := by simpa [Option.mem_def] using h
  rcases List.mem_getLast?_eq_getLast hmem with ⟨hne, rfl⟩
  exact List.getLast_mem hne

lemma interiorRpeaks_lower {α : Type} {eL h f : Nat} {es : List (List α × List Nat)} :
    ∀ {idx x : Nat}, x ∈ interiorRpeaks eL h f idx es → idx * f + h ≤ x := by
  induction es with
  | nil => intro idx x hx; simp [interiorRpeaks] at hx
  | cons e es ih =>
    intro idx x hx
    simp only [interiorRpeaks] at hx
    rcases List.mem_append.mp hx with hx1 | hx2
    · rcases List.mem_map.mp hx1 with ⟨r, hr, rfl⟩
      have h2 : h ≤ r ∧ r < eL - h := by simpa using (List.mem_filter.mp hr).2
      omega
    · have h1 := ih hx2
      have h2 : idx * f ≤ (idx + 1) * f := Nat.mul_le_mul_right f (by omega)
      omega

lemma interiorRpeaks_upper {α : Type} {eL h f : Nat} (hE : eL - h = f + h)
    {es : List (List α × List Nat)} :
    ∀ {idx x : Nat}, x ∈ interiorRpeaks eL h f idx es →
      x < (idx + es.length) * f + h := by
  induction es with
  | nil => intro idx x hx; simp [interiorRpeaks] at hx
  | cons e es ih =>
    intro idx x hx
    simp only [interiorRpeaks] at hx
    rcases List.mem_append.mp hx with hx1 | hx2
    · rcases List.mem_map.mp hx1 with ⟨r, hr, rfl⟩
      have h2 : h ≤ r ∧ r < eL - h := by simpa using (List.mem_filter.mp hr).2
      have h3 : (idx + 1) * f ≤ (idx + (e :: es).length) * f :=
        Nat.mul_le_mul_right f (by simp only [List.length_cons]; omega)
      have h4 : idx * f + r < (idx + 1) * f + h := by
        have hrf : r < f + h := hE ▸ h2.2
        calc idx * f + r < idx * f + (f + h) := by omega
          _ = (idx + 1) * f + h := by ring
      omega
    · have h1 := ih hx2
      have he : idx + 1 + es.length = idx + (e :: es).length := by
        simp only [List.length_cons]; omega
      rw [he] at h1
      exact h1

lemma interiorRpeaks_pairwise {α : Type} {eL h f : Nat} (hE : eL - h = f + h)
    {es : List (List α × List Nat)} (hev : ∀ e ∈ es, List.Pairwise (· < ·) e.2) :
    ∀ idx, List.Pairwise (· < ·) (interiorRpeaks eL h f idx es) := by
  induction es with
  | nil => intro idx; simp [interiorRpeaks]
  | cons e es ih =>
    intro idx
    simp only [interiorRpeaks]
    refine List.pairwise_append.mpr
      ⟨?_, ih (fun e' he' => hev e' (List.mem_cons_of_mem _ he')) (idx + 1), ?_⟩
    · exact List.Pairwise.map _ (fun a b hab => by omega)
        ((hev e (List.mem_cons_self _ _)).filter _)
    · intro a ha b hb
      rcases List.mem_map.mp ha with ⟨r, hr, rfl⟩
      have h2 : h ≤ r ∧ r < eL - h := by simpa using (List.mem_filter.mp hr).2
      have h3 := interiorRpeaks_lower hb
      have h4 : idx * f + r < (idx + 1) * f + h := by
        have hrf : r < f + h := hE ▸ h2.2
        calc idx * f + r < idx * f + (f + h) := by omega
          _ = (idx + 1) * f + h := by ring
      omega

lemma stitch_eq_some_false {α : Type} {eL h f : Nat}
    {results : List (List α × List Nat)} {res : List α × List Nat}
    (hs : stitch eL h f false results = some res) :
    ∃ r0 rest, results = r0 :: rest ∧
      res = (r0.1.take (eL - h) ++ (rest.map (fun e => interiorSlice e.1 h)).flatten,
        r0.2.filter (fun r => decide (r < eL - h)) ++ interiorRpeaks eL h f 1 rest) := by
  unfold stitch at hs
  cases results with
  | nil => simp at hs
  | cons r0 rest =>
    refine ⟨r0, rest, rfl, ?_⟩
    simp only [Bool.false_eq_true, if_false, Option.some.injEq] at hs
    exact hs.symm

lemma stitch_eq_some_true {α : Type} {eL h f : Nat}
    {results : List (List α × List Nat)} {res : List α × List Nat}
    (hs : stitch eL h f true results = some res) :
    ∃ r0 rest tl lastE, results.dropLast = r0 :: rest ∧ results.getLast? = some tl ∧
      rest.getLast? = some lastE ∧
      res = (r0.1.take (eL - h) ++ (rest.map (fun e => interiorSlice e.1 h)).flatten
          ++ tl.1.drop h,
        r0.2.filter (fun r => decide (r < eL - h)) ++ interiorRpeaks eL h f 1 rest
          ++ (lastE.2.filter (fun r => decide (h ≤ r ∧ r < eL - h))).map
              (fun r => (rest.length + 1) * f + r)) := by
  unfold stitch at hs
  cases hd : results.dropLast with
  | nil => rw [hd] at hs; simp at hs
  | cons r0 rest =>
    rw [hd] at hs
    simp only [if_true] at hs
    cases hg : results.getLast? with
    | none => rw [hg] at hs; simp at hs
    | some tl =>
      rw [hg] at hs
      cases hg2 : rest.getLast? with
      | none => rw [hg2] at hs; simp at hs
      | some lastE =>
        rw [hg2] at hs
        simp only [Option.some.injEq] at hs
        refine ⟨r0, rest, tl, lastE, rfl, rfl, hg2, ?_⟩
        rw [← hs]
        simp [List.length_cons, List.append_assoc]

/-- **C9** (amended): (1) the beat sequence produced by the chunked parallel
preprocessor is strictly increasing whenever each per-window detector output
is strictly increasing; (2) the matcher's augmented beat-location list is
always sorted ascending (non-decreasing) — it need not be *strictly*
increasing (see the counterexample). -/
theorem C9_sorted_outputs :
    (∀ {α : Type} (F : List α → List α) (D : List α → List Nat)
      (epochLen overlapHalf tailThr : Nat) (keepTail : Bool) (raw : List α),
      (∀ w, List.Pairwise (· < ·) (D w)) → 2 * overlapHalf < epochLen →
      ∀ res, parallelPreprocessSignal F D epochLen overlapHalf tailThr keepTail raw
          = some res →
        List.Pairwise (· < ·) res.2) ∧
    (∀ (rpeaks spb pvc : List Int) (bias fs : Nat) (winL winR sigLen : Int)
      (res : MatcherResult),
      annToBeatAnn rpeaks spb pvc bias fs winL winR sigLen = some res →
      List.Pairwise (· ≤ ·) res.rpeaks_aug) := by
  constructor
  · intro α F D eL h tThr keepTail raw hD h2 res hres
    unfold parallelPreprocessSignal at hres
    by_cases hshort : raw.length ≤ 3 * eL
    · rw [if_pos hshort] at hres
      simp only [Option.some.injEq] at hres
      rw [← hres]
      exact hD raw
    · rw [if_neg hshort] at hres
      obtain ⟨windows, hw, hs⟩ := Option.bind_eq_some.mp hres
      have hE : eL - h = (eL - 2 * h) + h := by omega
      have hmem : ∀ e ∈ windows.map (preprocessSignal F D),
          List.Pairwise (· < ·) e.2 := by
        intro e he
        rcases List.mem_map.mp he with ⟨w, _, rfl⟩
        exact hD w
      cases keepTail with
      | false =>
        obtain ⟨r0, rest, hrr, hre⟩ := stitch_eq_some_false hs
        rw [hre]
        have hr0 : List.Pairwise (· < ·) r0.2 := hmem _ (hrr ▸ List.mem_cons_self _ _)
        have hrest : ∀ e ∈ rest, List.Pairwise (· < ·) e.2 := fun e he =>
          hmem _ (hrr ▸ List.mem_cons_of_mem _ he)
        refine List.pairwise_append.mpr
          ⟨hr0.filter _, interiorRpeaks_pairwise hE hrest 1, ?_⟩
        intro a ha b hb
        have ha2 : a < eL - h := by simpa using (List.mem_filter.mp ha).2
        have hb2 := interiorRpeaks_lower hb
        omega
      | true =>
        obtain ⟨r0, rest, tl, lastE, hdl, hgl, hgl2, hre⟩ := stitch_eq_some_true hs
        rw [hre]
        have hsub : ∀ e ∈ r0 :: rest, List.Pairwise (· < ·) e.2 := by
          intro e he
          exact hmem _ ((List.dropLast_sublist _).subset (hdl ▸ he))
        have hr0 : List.Pairwise (· < ·) r0.2 := hsub _ (List.mem_cons_self _ _)
        have hrest : ∀ e ∈ rest, List.Pairwise (· < ·) e.2 := fun e he =>
          hsub _ (List.mem_cons_of_mem _ he)
        have hlastE : List.Pairwise (· < ·) lastE.2 :=
          hrest _ (mem_of_getLast?_eq hgl2)
        refine List.pairwise_append.mpr ⟨List.pairwise_append.mpr
          ⟨hr0.filter _, interiorRpeaks_pairwise hE hrest 1, ?_⟩, ?_, ?_⟩
        · intro a ha b hb
          have ha2 : a < eL - h := by simpa using (List.mem_filter.mp ha).2
          have hb2 := interiorRpeaks_lower hb
          omega
        · exact List.Pairwise.map _ (fun a b hab => by omega) (hlastE.filter _)
        · intro a ha b hb
          rcases List.mem_map.mp hb with ⟨r, hrf, rfl⟩
          have hr2 : h ≤ r ∧ r < eL - h := by simpa using (List.mem_filter.mp hrf).2
          rcases List.mem_append.mp ha with ha1 | ha2
          · have ha3 : a < eL - h := by simpa using (List.mem_filter.mp ha1).2
            have : 1 * (eL - 2 * h) ≤ (rest.length + 1) * (eL - 2 * h) :=
              Nat.mul_le_mul_right _ (by omega)
            omega
          · have ha3 := interiorRpeaks_upper hE ha2
            have he : (1 + rest.length) * (eL - 2 * h)
                = (rest.length + 1) * (eL - 2 * h) := by ring
            rw [he] at ha3
            omega
  · intro rpeaks spb pvc bias fs winL winR sigLen res hres
    obtain ⟨eps, heps, hpp⟩ := annToBeatAnn_eq hres
    subst hpp
    have hsorted := List.sorted_insertionSort pairLE
      (rpeaks.zip ((eps.map (fun e => annToBeatAnnEpochV3 e.rp e.annS e.annV bias)).map
          (·.beat_ann)).flatten
        ++ (notMatched spb ((eps.map (fun e =>
            annToBeatAnnEpochV3 e.rp e.annS e.annV bias)).map (·.matchedS)).flatten).map
          (fun a => (a, Label.S))
        ++ (notMatched pvc ((eps.map (fun e =>
            annToBeatAnnEpochV3 e.rp e.annS e.annV bias)).map (·.matchedV)).flatten).map
          (fun a => (a, Label.V)))
    exact List.Pairwise.map _ (fun a b hab => hab) (hsorted.filter _)

/-- **C9** (witness): concrete instantiation of the preprocessor half on a
3-window signal with an increasing per-window detector output. -/
theorem C9_witness :
    ∀ res, parallelPreprocessSignal (α := Int) id (fun w => [w.length - 2]) 10 1 5 true
        raw45 = some res →
      List.Pairwise (· < ·) res.2 :=
  C9_sorted_outputs.1 id (fun w => [w.length - 2]) 10 1 5 true raw45
    (fun w => by simp) (by decide)

/-! ## Helper lemmas for length preservation -/

lemma interiorSlice_length {α : Type} (xs : List α) {h : Nat} (hh : h ≠ 0) :
    (interiorSlice xs h).length = xs.length - 2 * h := by
  simp only [interiorSlice, if_neg hh, List.length_take, List.length_drop]
  omega

lemma flatten_const_length {α β : Type} (g : β → List α) (c : Nat) :
    ∀ l : List β, (∀ e ∈ l, (g e).length = c) →
      ((l.map g).flatten).length = l.length * c
  | [], _ => by simp
  | e :: t, hg => by
    simp only [List.map_cons, List.flatten_cons, List.length_append, List.length_cons]
    rw [flatten_const_length g c t (fun x hx => hg x (List.mem_cons_of_mem _ hx)),
      hg e (List.mem_cons_self _ _)]
    ring

lemma mkWindows_length {α : Type} (eL f : Nat) (raw : List α) (n : Nat) :
    (mkWindows eL f raw n).length = n := by
  simp [mkWindows]

lemma mkWindows_mem_len {α : Type} {eL f n : Nat} {raw : List α}
    (hfit : (n - 1) * f + eL ≤ raw.length) :
    ∀ w ∈ mkWindows eL f raw n, w.length = eL := by
  intro w hw
  simp only [mkWindows, List.mem_map, List.mem_range] at hw
  obtain ⟨i, hi, rfl⟩ := hw
  rw [List.length_take, List.length_drop]
  have hle : i * f ≤ (n - 1) * f := Nat.mul_le_mul_right f (by omega)
  omega

/-- Case analysis of the window construction with the tail policy on. -/
lemma windowsOf_true_cases {α : Type} {eL h tThr : Nat} {raw : List α}
    {windows : List (List α)}
    (hw : windowsOf eL h tThr true raw = some windows) :
    (raw.length - ((eL - 2 * h) * ((raw.length - 2 * h) / (eL - 2 * h)) + 2 * h) < tThr ∧
      ∃ lastW,
        (mkWindows eL (eL - 2 * h) raw ((raw.length - 2 * h) / (eL - 2 * h))).getLast?
          = some lastW ∧
        windows = (mkWindows eL (eL - 2 * h) raw
            ((raw.length - 2 * h) / (eL - 2 * h))).dropLast
          ++ [lastW ++ raw.drop
              ((eL - 2 * h) * ((raw.length - 2 * h) / (eL - 2 * h)) + 2 * h)]) ∨
    (¬ raw.length - ((eL - 2 * h) * ((raw.length - 2 * h) / (eL - 2 * h)) + 2 * h) < tThr ∧
      windows = mkWindows eL (eL - 2 * h) raw ((raw.length - 2 * h) / (eL - 2 * h))
        ++ [raw.drop ((eL - 2 * h) * ((raw.length - 2 * h) / (eL - 2 * h)))]) := by
  simp only [windowsOf, if_true, Nat.add_sub_cancel] at hw
  by_cases hst : raw.length
      - ((eL - 2 * h) * ((raw.length - 2 * h) / (eL - 2 * h)) + 2 * h) < tThr
  · rw [if_pos hst] at hw
    cases hgl : (mkWindows eL (eL - 2 * h) raw
        ((raw.length - 2 * h) / (eL - 2 * h))).getLast? with
    | none => rw [hgl] at hw; simp at hw
    | some lastW =>
      rw [hgl] at hw
      simp only [Option.some.injEq] at hw
      exact Or.inl ⟨hst, lastW, rfl, hw.symm⟩
  · rw [if_neg hst] at hw
    simp only [Option.some.injEq] at hw
    exact Or.inr ⟨hst, hw.symm⟩

/-- **C6**: with the tail-keeping policy on and a length-preserving filter,
the stitched filtered signal has exactly as many samples as the raw signal
(the retained spans of the first window, the interior windows and the tail
partition the raw length). -/
theorem C6_length_preservation {α : Type} (F : List α → List α) (D : List α → List Nat)
    (epochLen overlapHalf tailThr : Nat) (raw : List α)
    (hF : ∀ s, (F s).length = s.length)
    (h1 : 0 < overlapHalf) (h2 : 2 * overlapHalf < epochLen) :
    ∀ res, parallelPreprocessSignal F D epochLen overlapHalf tailThr true raw = some res →
      res.1.length = raw.length := by
  intro res hres
  unfold parallelPreprocessSignal at hres
  by_cases hshort : raw.length ≤ 3 * epochLen
  · rw [if_pos hshort] at hres
    simp only [Option.some.injEq] at hres
    rw [← hres]
    exact hF raw
  · rw [if_neg hshort] at hres
    obtain ⟨windows, hw, hs⟩ := Option.bind_eq_some.mp hres
    obtain ⟨r0, rest, tl, lastE, hdl, hgl, hgl2, hre⟩ := stitch_eq_some_true hs
    -- abbreviations
    have hlong : 3 * epochLen < raw.length := by omega
    have hfpos : 0 < epochLen - 2 * overlapHalf := by omega
    have hn3 : 3 ≤ (raw.length - 2 * overlapHalf) / (epochLen - 2 * overlapHalf) := by
      rw [Nat.le_div_iff_mul_le hfpos]
      have e1 : 3 * (epochLen - 2 * overlapHalf) ≤ 3 * epochLen :=
        Nat.mul_le_mul_left 3 (by omega)
      omega
    have hdivle : ((raw.length - 2 * overlapHalf) / (epochLen - 2 * overlapHalf))
        * (epochLen - 2 * overlapHalf) ≤ raw.length - 2 * overlapHalf :=
      Nat.div_mul_le_self _ _
    have hfit : (((raw.length - 2 * overlapHalf) / (epochLen - 2 * overlapHalf)) - 1)
        * (epochLen - 2 * overlapHalf) + epochLen ≤ raw.length := by
      have e1 : (((raw.length - 2 * overlapHalf) / (epochLen - 2 * overlapHalf)) - 1)
          * (epochLen - 2 * overlapHalf)
          = ((raw.length - 2 * overlapHalf) / (epochLen - 2 * overlapHalf))
            * (epochLen - 2 * overlapHalf) - 1 * (epochLen - 2 * overlapHalf) :=
        Nat.sub_mul _ _ _
      have e2 : (epochLen - 2 * overlapHalf)
          ≤ ((raw.length - 2 * overlapHalf) / (epochLen - 2 * overlapHalf))
            * (epochLen - 2 * overlapHalf) :=
        Nat.le_mul_of_pos_left _ (by omega)
      generalize hA : ((raw.length - 2 * overlapHalf) / (epochLen - 2 * overlapHalf))
          * (epochLen - 2 * overlapHalf) = A at *
      generalize hB : (((raw.length - 2 * overlapHalf) / (epochLen - 2 * overlapHalf)) - 1)
          * (epochLen - 2 * overlapHalf) = B at *
      omega
    have hwinlen := @mkWindows_mem_len α _ _ _ raw hfit
    rcases windowsOf_true_cases hw with ⟨hst, lastW, hglW, hwin⟩ | ⟨hst, hwin⟩
    · -- short tail appended to the last window
      subst hwin
      simp only [List.map_append, List.map_cons, List.map_nil] at hdl hgl
      rw [List.dropLast_concat] at hdl
      rw [List.getLast?_concat] at hgl
      simp only [Option.some.injEq] at hgl
      have hlenW : ∀ e ∈ (mkWindows epochLen (epochLen - 2 * overlapHalf) raw
          ((raw.length - 2 * overlapHalf) / (epochLen - 2 * overlapHalf))).dropLast.map
            (preprocessSignal F D), e.1.length = epochLen := by
        intro e he
        rcases List.mem_map.mp he with ⟨w, hwm, rfl⟩
        have : w ∈ mkWindows epochLen (epochLen - 2 * overlapHalf) raw
            ((raw.length - 2 * overlapHalf) / (epochLen - 2 * overlapHalf)) :=
          (List.dropLast_sublist _).subset hwm
        simp only [preprocessSignal]
        rw [hF w, hwinlen w this]
      have hr0len : r0.1.length = epochLen := hlenW r0 (hdl ▸ List.mem_cons_self _ _)
      have hrestlen : ∀ e ∈ rest, (interiorSlice e.1 overlapHalf).length
          = epochLen - 2 * overlapHalf := by
        intro e he
        rw [interiorSlice_length _ (by omega), hlenW e (hdl ▸ List.mem_cons_of_mem _ he)]
      have hrestcount : rest.length
          = ((raw.length - 2 * overlapHalf) / (epochLen - 2 * overlapHalf)) - 1 - 1 := by
        have := congrArg List.length hdl
        simp only [List.length_map, List.length_dropLast, mkWindows_length,
          List.length_cons] at this
        omega
      have htll : tl.1.length = epochLen
          + (raw.length - ((epochLen - 2 * overlapHalf)
            * ((raw.length - 2 * overlapHalf) / (epochLen - 2 * overlapHalf))
            + 2 * overlapHalf)) := by
        rw [← hgl]
        simp only [preprocessSignal]
        rw [hF, List.length_append, List.length_drop]
        have hlW : lastW.length = epochLen :=
          hwinlen lastW (mem_of_getLast?_eq hglW)
        rw [hlW]
      -- assemble
      rw [hre]
      simp only [List.length_append, List.length_take, List.length_drop]
      rw [flatten_const_length _ _ rest hrestlen, htll, hr0len, hrestcount]
      rw [Nat.mul_comm (epochLen - 2 * overlapHalf)
        ((raw.length - 2 * overlapHalf) / (epochLen - 2 * overlapHalf))]
      have e1 : (((raw.length - 2 * overlapHalf) / (epochLen - 2 * overlapHalf)) - 1 - 1)
          * (epochLen - 2 * overlapHalf)
          = ((raw.length - 2 * overlapHalf) / (epochLen - 2 * overlapHalf))
            * (epochLen - 2 * overlapHalf) - 2 * (epochLen - 2 * overlapHalf) := by
        have e0 : ((raw.length - 2 * overlapHalf) / (epochLen - 2 * overlapHalf)) - 1 - 1
            = ((raw.length - 2 * overlapHalf) / (epochLen - 2 * overlapHalf)) - 2 := by
          omega
        rw [e0, Nat.sub_mul]
      have e2 : 2 * (epochLen - 2 * overlapHalf)
          ≤ ((raw.length - 2 * overlapHalf) / (epochLen - 2 * overlapHalf))
            * (epochLen - 2 * overlapHalf) :=
        Nat.mul_le_mul_right _ (by omega)
      omega
    · -- long tail: its own window
      subst hwin
      simp only [List.map_append, List.map_cons, List.map_nil] at hdl hgl
      rw [List.dropLast_concat] at hdl
      rw [List.getLast?_concat] at hgl
      simp only [Option.some.injEq] at hgl
      have hlenW : ∀ e ∈ (mkWindows epochLen (epochLen - 2 * overlapHalf) raw
          ((raw.length - 2 * overlapHalf) / (epochLen - 2 * overlapHalf))).map
            (preprocessSignal F D), e.1.length = epochLen := by
        intro e he
        rcases List.mem_map.mp he with ⟨w, hwm, rfl⟩
        simp only [preprocessSignal]
        rw [hF w, hwinlen w hwm]
      have hr0len : r0.1.length = epochLen := hlenW r0 (hdl ▸ List.mem_cons_self _ _)
      have hrestlen : ∀ e ∈ rest, (interiorSlice e.1 overlapHalf).length
          = epochLen - 2 * overlapHalf := by
        intro e he
        rw [interiorSlice_length _ (by omega), hlenW e (hdl ▸ List.mem_cons_of_mem _ he)]
      have hrestcount : rest.length
          = ((raw.length - 2 * overlapHalf) / (epochLen - 2 * overlapHalf)) - 1 := by
        have := congrArg List.length hdl
        simp only [List.length_map, mkWindows_length, List.length_cons] at this
        omega
      have htll : tl.1.length = raw.length - (epochLen - 2 * overlapHalf)
          * ((raw.length - 2 * overlapHalf) / (epochLen - 2 * overlapHalf)) := by
        rw [← hgl]
        simp only [preprocessSignal]
        rw [hF, List.length_drop]
      rw [hre]
      simp only [List.length_append, List.length_take, List.length_drop]
      rw [flatten_const_length _ _ rest hrestlen, htll, hr0len, hrestcount]
      rw [Nat.mul_comm (epochLen - 2 * overlapHalf)
        ((raw.length - 2 * overlapHalf) / (epochLen - 2 * overlapHalf))]
      have e1 : (((raw.length - 2 * overlapHalf) / (epochLen - 2 * overlapHalf)) - 1)
          * (epochLen - 2 * overlapHalf)
          = ((raw.length - 2 * overlapHalf) / (epochLen - 2 * overlapHalf))
            * (epochLen - 2 * overlapHalf) - 1 * (epochLen - 2 * overlapHalf) :=
        Nat.sub_mul _ _ _
      have e2 : 1 * (epochLen - 2 * overlapHalf)
          ≤ ((raw.length - 2 * overlapHalf) / (epochLen - 2 * overlapHalf))
            * (epochLen - 2 * overlapHalf) :=
        Nat.mul_le_mul_right _ (by omega)
      omega

/-- **C6** (witness): the 45-sample signal keeps all 45 samples. -/
theorem C6_witness :
    parallelPreprocessSignal (α := Int) id (fun _ => []) 10 1 5 true raw45
        = some (raw45, []) ∧ (raw45, ([] : List Nat)).1.length = raw45.length :=
  ⟨by decide,
   C6_length_preservation id (fun _ => []) 10 1 5 raw45 (fun _ => rfl)
     (by decide) (by decide) (raw45, []) (by decide)⟩

/-! ## Helper lemmas for the hour-epoch partition -/

lemma countBelow_mono {l : List Int} {m m' : Int} (h : m ≤ m') :
    countBelow l m ≤ countBelow l m' := by
  unfold countBelow
  induction l with
  | nil => simp
  | cons a t ih =>
    simp only [List.filter_cons]
    by_cases h1 : a < m
    · rw [if_pos (by simpa using h1), if_pos (by simp; omega)]
      simpa using ih
    · by_cases h2 : a < m'
      · rw [if_neg (by simpa using h1), if_pos (by simpa using h2)]
        simp only [List.length_cons]
        omega
      · rw [if_neg (by simpa using h1), if_neg (by simpa using h2)]
        exact ih

lemma countBelow_le_length (l : List Int) (m : Int) : countBelow l m ≤ l.length :=
  List.length_filter_le _ _

lemma chain'_le_getLastD : ∀ {t : Nat} {ts : List Nat},
    List.Chain' (· ≤ ·) (t :: ts) → t ≤ (t :: ts).getLastD 0 := by
  intro t ts
  induction ts generalizing t with
  | nil => intro; simp
  | cons u ts ih =>
    intro h
    rw [List.chain'_cons] at h
    have := ih h.2
    simp only [List.getLastD_cons] at this ⊢
    omega

lemma segsFrom_flatten (xs : List Int) : ∀ (ts : List Nat) (s : Nat),
    List.Chain' (· ≤ ·) (s :: ts) →
    (segsFrom xs s ts).flatten = (xs.drop s).take ((s :: ts).getLastD 0 - s) := by
  intro ts
  induction ts with
  | nil => intro s _; simp [segsFrom]
  | cons t ts ih =>
    intro s hch
    rw [List.chain'_cons] at hch
    have hst : s ≤ t := hch.1
    have htL : t ≤ (t :: ts).getLastD 0 := chain'_le_getLastD hch.2
    simp only [segsFrom, List.flatten_cons]
    rw [ih t hch.2]
    unfold pySlice
    have hdd : xs.drop t = (xs.drop s).drop (t - s) := by
      rw [List.drop_drop]
      congr 1
      omega
    rw [hdd, ← List.take_add]
    have : (t - s) + ((t :: ts).getLastD 0 - t) = (t :: ts).getLastD 0 - s := by omega
    rw [this]
    simp only [List.getLastD_cons]

lemma segsFrom_mem (xs : List Int) : ∀ {ts : List Nat} {s : Nat} {sl : List Int},
    sl ∈ segsFrom xs s ts → ∃ u v, sl = pySlice xs u v := by
  intro ts
  induction ts with
  | nil => intro s sl h; simp [segsFrom] at h
  | cons t ts ih =>
    intro s sl h
    simp only [segsFrom, List.mem_cons] at h
    rcases h with rfl | h
    · exact ⟨s, t, rfl⟩
    · exact ih h

lemma chain'_map_range' {g : Nat → Nat} (hg : ∀ i, g i ≤ g (i + 1)) :
    ∀ (k s : Nat), List.Chain' (· ≤ ·) ((List.range' s k).map g) := by
  intro k
  induction k with
  | zero => intro s; simp
  | succ k ih =>
    intro s
    rw [List.range'_succ]
    cases k with
    | zero => simp
    | succ k =>
      rw [List.range'_succ]
      simp only [List.map_cons]
      rw [List.chain'_cons]
      refine ⟨hg s, ?_⟩
      have := ih (s + 1)
      rw [List.range'_succ] at this
      simpa using this

/-- The base split list is non-decreasing. -/
lemma hourBase_chain (rpeaks : List Int) (bias oh : Nat) (lastR : Int) :
    List.Chain' (· ≤ ·) (hourBase rpeaks bias oh lastR) := by
  unfold hourBase
  have hg : ∀ i, countBelow rpeaks ((i * oh : Nat) : Int) + 1
      ≤ countBelow rpeaks (((i + 1) * oh : Nat) : Int) + 1 := by
    intro i
    have hmono := @countBelow_mono rpeaks ((i * oh : Nat) : Int)
      (((i + 1) * oh : Nat) : Int)
      (by have : i * oh ≤ (i + 1) * oh := Nat.mul_le_mul_right oh (by omega)
          exact_mod_cast this)
    omega
  cases hq : ((lastR + (bias : Int)).toNat) / oh - 1 with
  | zero => simp
  | succ k =>
    rw [List.range'_succ]
    simp only [List.map_cons]
    rw [List.chain'_cons]
    refine ⟨by omega, ?_⟩
    have hch := chain'_map_range'
      (g := fun i => countBelow rpeaks ((i * oh : Nat) : Int) + 1) hg (k + 1) 1
    rw [List.range'_succ] at hch
    simpa using hch

lemma hourBase_ne_nil (rpeaks : List Int) (bias oh : Nat) (lastR : Int) :
    hourBase rpeaks bias oh lastR ≠ [] := by
  unfold hourBase
  simp

/-- The split-index list is non-decreasing. -/
lemma hourSplits_chain (rpeaks : List Int) (bias oh : Nat) (lastR : Int) :
    List.Chain' (· ≤ ·) (hourSplits rpeaks bias oh lastR) := by
  unfold hourSplits
  split
  · rename_i hcond
    refine List.chain'_append.mpr ⟨hourBase_chain rpeaks bias oh lastR, by simp, ?_⟩
    intro x hx y hy
    simp only [List.head?_cons, Option.mem_def, Option.some.injEq] at hy
    subst hy
    have hxval : (hourBase rpeaks bias oh lastR).getLastD 0 = x := by
      rw [List.getLastD_eq_getLast?]
      rw [Option.mem_def] at hx
      rw [hx]
      rfl
    rcases hcond with h1 | h2
    · have hb : hourBase rpeaks bias oh lastR = [0] := by
        unfold hourBase at h1 ⊢
        rcases List.length_eq_one.mp h1 with ⟨a, ha⟩
        have : a = 0 := by
          have := congrArg List.head? ha
          simpa using this.symm
        rw [ha, this]
      rw [hb] at hxval
      simp at hxval
      omega
    · omega
  · exact hourBase_chain rpeaks bias oh lastR

lemma hourSplits_head (rpeaks : List Int) (bias oh : Nat) (lastR : Int) :
    ∃ ts, hourSplits rpeaks bias oh lastR = 0 :: ts := by
  unfold hourSplits hourBase
  split
  · exact ⟨_, rfl⟩
  · exact ⟨_, rfl⟩

lemma hourSplits_last_ge (rpeaks : List Int) (bias oh : Nat) (lastR : Int) :
    rpeaks.length ≤ (hourSplits rpeaks bias oh lastR).getLastD 0 := by
  unfold hourSplits
  split
  · rw [List.getLastD_eq_getLast?, List.getLast?_concat]
    simp
  · rename_i hcond
    push_neg at hcond
    exact hcond.2

/-- The hour slices cover the beat list exactly. -/
lemma epochSlices_flatten (rpeaks : List Int) (bias oh : Nat) (lastR : Int) :
    (epochSlices rpeaks bias oh lastR).flatten = rpeaks := by
  unfold epochSlices
  obtain ⟨ts, hts⟩ := hourSplits_head rpeaks bias oh lastR
  have hch : List.Chain' (· ≤ ·) (0 :: ts) := hts ▸ hourSplits_chain rpeaks bias oh lastR
  have hge : rpeaks.length ≤ (0 :: ts).getLastD 0 :=
    hts ▸ hourSplits_last_ge rpeaks bias oh lastR
  rw [hts]
  simp only [List.tail_cons]
  rw [segsFrom_flatten rpeaks ts 0 hch]
  simp only [List.drop_zero, Nat.sub_zero]
  exact List.take_of_length_le hge

lemma epochSlices_sorted {rpeaks : List Int} (hs : rpeaks.Pairwise (· ≤ ·))
    (bias oh : Nat) (lastR : Int) :
    ∀ sl ∈ epochSlices rpeaks bias oh lastR, sl.Pairwise (· ≤ ·) := by
  intro sl hsl
  obtain ⟨u, v, rfl⟩ := segsFrom_mem rpeaks hsl
  unfold pySlice
  exact List.Pairwise.sublist ((List.take_sublist _ _).trans (List.drop_sublist _ _)) hs

lemma mapOpt_some {f : List Int → Option Epoch} :
    ∀ {xs : List (List Int)} {ys : List Epoch}, mapOpt f xs = some ys →
      List.Forall₂ (fun x y => f x = some y) xs ys := by
  intro xs
  induction xs with
  | nil =>
    intro ys h
    simp only [mapOpt, Option.some.injEq] at h
    rw [← h]
    exact List.Forall₂.nil
  | cons x xs ih =>
    intro ys h
    simp only [mapOpt] at h
    cases hf : f x with
    | none => rw [hf] at h; simp at h
    | some y =>
      rw [hf] at h
      cases hm : mapOpt f xs with
      | none => rw [hm] at h; simp at h
      | some ys' =>
        rw [hm] at h
        simp only [Option.some.injEq] at h
        rw [← h]
        exact List.Forall₂.cons hf (ih hm)

lemma mkEpoch_some {spb pvc : List Int} {bias : Nat} {rp : List Int} {ep : Epoch}
    (h : mkEpoch spb pvc bias rp = some ep) :
    ∃ fv lv, rp.head? = some fv ∧ rp.getLast? = some lv ∧
      ep.rp = rp ∧
      ep.annS = spb.filter (fun a =>
        decide (fv - (bias : Int) - 1 ≤ a ∧ a < lv + (bias : Int) + 1)) ∧
      ep.annV = pvc.filter (fun a =>
        decide (fv - (bias : Int) - 1 ≤ a ∧ a < lv + (bias : Int) + 1)) := by
  unfold mkEpoch at h
  cases hh : rp.head? with
  | none => rw [hh] at h; simp at h
  | some fv =>
    cases hg : rp.getLast? with
    | none => rw [hh, hg] at h; simp at h
    | some lv =>
      rw [hh, hg] at h
      simp only [Option.some.injEq] at h
      exact ⟨fv, lv, rfl, rfl, by rw [← h], by rw [← h], by rw [← h]⟩

lemma sorted_head_le {rp : List Int} {fv : Int} (hh : rp.head? = some fv)
    (hs : rp.Pairwise (· ≤ ·)) : ∀ r ∈ rp, fv ≤ r := by
  cases rp with
  | nil => simp at hh
  | cons a t =>
    simp only [List.head?_cons, Option.some.injEq] at hh
    subst hh
    intro r hr
    rcases List.mem_cons.mp hr with rfl | hr'
    · exact le_refl r
    · exact (List.pairwise_cons.mp hs).1 r hr'

lemma sorted_le_getLast {rp : List Int} {lv : Int} :
    rp.getLast? = some lv → rp.Pairwise (· ≤ ·) → ∀ r ∈ rp, r ≤ lv := by
  induction rp with
  | nil => intro hg; simp at hg
  | cons a t ih =>
    intro hg hs r hr
    cases t with
    | nil =>
      simp only [List.getLast?_singleton, Option.some.injEq] at hg
      simp only [List.mem_singleton] at hr
      omega
    | cons b t' =>
      rw [List.getLast?_cons_cons] at hg
      rcases List.mem_cons.mp hr with rfl | hr'
      · exact (List.pairwise_cons.mp hs).1 lv (mem_of_getLast?_eq hg)
      · exact ih hg (List.pairwise_cons.mp hs).2 r hr'

/-- If the nearest annotation is within `bias`, restricting the list to a
window that only discards annotations farther than `bias` preserves the
(first) nearest annotation. -/
lemma argminD_filter_close {bias : Nat} {r : Int} {P : Int → Bool} :
    ∀ {l : List Int} {b : Int}, argminD r l = some b → (r - b).natAbs ≤ bias →
      (∀ a ∈ l, P a = false → bias < (r - a).natAbs) →
      argminD r (l.filter P) = some b := by
  intro l
  induction l with
  | nil => intro b h _ _; simp [argminD] at h
  | cons a t ih =>
    intro b h hb hP
    rw [argminD_cons] at h
    cases hrec : argminD r t with
    | none =>
      rw [hrec] at h
      simp only [Option.some.injEq] at h
      subst h
      have ht : t = [] := argminD_eq_none.mp hrec
      subst ht
      have hPa : P a = true := by
        cases hPb : P a
        · exact absurd (hP a (List.mem_cons_self _ _) hPb) (by omega)
        · rfl
      simp [List.filter_cons, hPa, argminD]
    | some c =>
      rw [hrec] at h
      simp only [] at h
      by_cases hle : (r - a).natAbs ≤ (r - c).natAbs
      · rw [if_pos hle] at h
        simp only [Option.some.injEq] at h
        subst h
        have hPa : P a = true := by
          cases hPb : P a
          · exact absurd (hP a (List.mem_cons_self _ _) hPb) (by omega)
          · rfl
        rw [List.filter_cons, if_pos (by simpa using hPa), argminD_cons]
        cases hrec2 : argminD r (t.filter P) with
        | none => rfl
        | some c' =>
          have hc'mem : c' ∈ t := List.mem_of_mem_filter (argminD_mem hrec2)
          have hcc' := argminD_le hrec c' hc'mem
          show (if (r - a).natAbs ≤ (r - c').natAbs then some a else some c') = some a
          rw [if_pos (by omega)]
      · rw [if_neg hle] at h
        simp only [Option.some.injEq] at h
        subst h
        have hfc := ih hrec hb (fun x hx => hP x (List.mem_cons_of_mem _ hx))
        rw [List.filter_cons]
        by_cases hPa : P a = true
        · rw [if_pos (by simpa using hPa), argminD_cons, hfc]
          show (if (r - a).natAbs ≤ (r - c).natAbs then some a else some c) = some c
          rw [if_neg hle]
        · rw [if_neg (by simpa using hPa)]
          exact hfc

/-- If no full-list annotation is within `bias`, none of the filtered list is. -/
lemma minD_filter_far {bias : Nat} {r : Int} {l : List Int} {P : Int → Bool}
    (hfar : leI (minD r l) (some bias) = false) :
    leI (minD r (l.filter P)) (some bias) = false := by
  cases hb : leI (minD r (l.filter P)) (some bias)
  · rfl
  · exfalso
    rcases leI_minD_iff.mp hb with ⟨a, ha, hle⟩
    have hal : a ∈ l := List.mem_of_mem_filter ha
    have := leI_minD_iff.mpr ⟨a, hal, hle⟩
    rw [hfar] at this
    exact Bool.false_ne_true this

/-- If some full-list annotation is within `bias`, the window restriction
changes neither the minimal distance nor the selected annotation. -/
lemma minD_filter_close {bias : Nat} {r : Int} {l : List Int} {P : Int → Bool}
    (hclose : leI (minD r l) (some bias) = true)
    (hP : ∀ a ∈ l, P a = false → bias < (r - a).natAbs) :
    minD r (l.filter P) = minD r l ∧ argminD r (l.filter P) = argminD r l := by
  rcases leI_minD_iff.mp hclose with ⟨a, ha, hlea⟩
  cases hA : argminD r l with
  | none =>
    rw [argminD_eq_none.mp hA] at ha
    simp at ha
  | some b =>
    have hb : (r - b).natAbs ≤ bias := le_trans (argminD_le hA a ha) hlea
    have heq := argminD_filter_close hA hb hP
    constructor
    · unfold minD
      rw [heq, hA]
    · exact heq

/-- Per-beat invariance of the v3 decision under a window restriction that
only discards annotations farther than `bias` from the beat. -/
lemma v3_restrict {bias : Nat} {spb pvc : List Int} {P : Int → Bool} {r : Int}
    (hPs : ∀ a ∈ spb, P a = false → bias < (r - a).natAbs)
    (hPv : ∀ a ∈ pvc, P a = false → bias < (r - a).natAbs) :
    v3Label bias (spb.filter P) (pvc.filter P) r = v3Label bias spb pvc r ∧
    (v3Label bias spb pvc r = .S → argminD r (spb.filter P) = argminD r spb) ∧
    (v3Label bias spb pvc r = .V → argminD r (pvc.filter P) = argminD r pvc) := by
  cases hS : leI (minD r spb) (some bias) with
  | true =>
    have hSeq := minD_filter_close hS hPs
    cases hV : leI (minD r pvc) (some bias) with
    | true =>
      have hVeq := minD_filter_close hV hPv
      refine ⟨?_, fun _ => hSeq.2, fun _ => hVeq.2⟩
      unfold v3Label
      rw [hSeq.1, hVeq.1]
    | false =>
      have hVfar := minD_filter_far (P := P) hV
      have h1 : leI (minD r spb) (minD r pvc) = true := by
        cases hdV : minD r pvc with
        | none => cases minD r spb <;> simp [leI]
        | some e =>
          rw [hdV] at hV
          cases hdS : minD r spb with
          | none => rw [hdS] at hS; simp [leI] at hS
          | some d =>
            rw [hdS] at hS
            simp only [leI, decide_eq_true_eq] at hS
            simp only [leI, decide_eq_false_iff_not] at hV
            simp only [leI, decide_eq_true_eq]
            omega
      have h1' : leI (minD r spb) (minD r (pvc.filter P)) = true := by
        cases hdV : minD r (pvc.filter P) with
        | none => cases minD r spb <;> simp [leI]
        | some e =>
          rw [hdV] at hVfar
          cases hdS : minD r spb with
          | none => rw [hdS] at hS; simp [leI] at hS
          | some d =>
            rw [hdS] at hS
            simp only [leI, decide_eq_true_eq] at hS
            simp only [leI, decide_eq_false_iff_not] at hVfar
            simp only [leI, decide_eq_true_eq]
            omega
      have hlS : v3Label bias spb pvc r = .S := by
        unfold v3Label
        rw [h1, hS]
        simp
      have hlS' : v3Label bias (spb.filter P) (pvc.filter P) r = .S := by
        unfold v3Label
        rw [hSeq.1, h1', hS]
        simp
      exact ⟨hlS'.trans hlS.symm, fun _ => hSeq.2,
        fun hlv => absurd (hlS.symm.trans hlv) (by decide)⟩
  | false =>
    have hSfar := minD_filter_far (P := P) hS
    cases hV : leI (minD r pvc) (some bias) with
    | true =>
      have hVeq := minD_filter_close hV hPv
      have hlV : v3Label bias spb pvc r = .V := by
        unfold v3Label
        rw [hS, Bool.and_false, hV]
        simp
      have hlV' : v3Label bias (spb.filter P) (pvc.filter P) r = .V := by
        unfold v3Label
        rw [hSfar, Bool.and_false, hVeq.1, hV]
        simp
      exact ⟨hlV'.trans hlV.symm,
        fun hls => absurd (hlV.symm.trans hls) (by decide), fun _ => hVeq.2⟩
    | false =>
      have hVfar := minD_filter_far (P := P) hV
      have hN := v3Label_eq_N hS hV
      have hN' := v3Label_eq_N hSfar hVfar
      exact ⟨hN'.trans hN.symm,
        fun hls => absurd (hN.symm.trans hls) (by decide),
        fun hlv => absurd (hN.symm.trans hlv) (by decide)⟩

/-- Annotations outside an epoch's window `[fv - bias - 1, lv + bias + 1)` are
more than `bias` samples from every beat in `[fv, lv]`. -/
lemma window_far {bias : Nat} {fv lv r a : Int} (h1 : fv ≤ r) (h2 : r ≤ lv)
    (hfa : decide (fv - (bias : Int) - 1 ≤ a ∧ a < lv + (bias : Int) + 1) = false) :
    bias < (r - a).natAbs := by
  rw [decide_eq_false_iff_not] at hfa
  omega

/-- On a sorted beat slice, the v3 matcher run against the epoch-restricted
annotation window produces exactly what it produces against the full sets. -/
lemma perEpoch_eq {spb pvc : List Int} {bias : Nat} {sl : List Int} {ep : Epoch}
    (hsl : sl.Pairwise (· ≤ ·)) (hep : mkEpoch spb pvc bias sl = some ep) :
    annToBeatAnnEpochV3 ep.rp ep.annS ep.annV bias
      = annToBeatAnnEpochV3 sl spb pvc bias := by
  obtain ⟨fv, lv, hh, hg, hrp, haS, haV⟩ := mkEpoch_some hep
  have hbound : ∀ r ∈ sl,
      (∀ a : Int, (fun a => decide (fv - (bias : Int) - 1 ≤ a
          ∧ a < lv + (bias : Int) + 1)) a = false → bias < (r - a).natAbs) := by
    intro r hr a hfa
    exact window_far (sorted_head_le hh hsl r hr) (sorted_le_getLast hg hsl r hr) hfa
  have hres : ∀ r ∈ sl,
      v3Label bias ep.annS ep.annV r = v3Label bias spb pvc r ∧
      (v3Label bias spb pvc r = .S → argminD r ep.annS = argminD r spb) ∧
      (v3Label bias spb pvc r = .V → argminD r ep.annV = argminD r pvc) := by
    intro r hr
    rw [haS, haV]
    exact v3_restrict (fun a _ => hbound r hr a) (fun a _ => hbound r hr a)
  rw [hrp]
  simp only [annToBeatAnnEpochV3, EpochResult.mk.injEq]
  refine ⟨?_, ?_, ?_⟩
  · exact List.map_congr_left (fun r hr => (hres r hr).1)
  · refine List.filterMap_congr (fun r hr => ?_)
    rw [(hres r hr).1]
    by_cases hgl : v3Label bias spb pvc r = .S
    · rw [if_pos hgl, if_pos hgl, (hres r hr).2.1 hgl]
    · rw [if_neg hgl, if_neg hgl]
  · refine List.filterMap_congr (fun r hr => ?_)
    rw [(hres r hr).1]
    by_cases hgl : v3Label bias spb pvc r = .V
    · rw [if_pos hgl, if_pos hgl, (hres r hr).2.2 hgl]
    · rw [if_neg hgl, if_neg hgl]

lemma stageFlatten {spb pvc : List Int} {bias : Nat} :
    ∀ {slices : List (List Int)} {eps : List Epoch},
      List.Forall₂ (fun sl ep => mkEpoch spb pvc bias sl = some ep) slices eps →
      (∀ sl ∈ slices, sl.Pairwise (· ≤ ·)) →
      eps.map (fun e => annToBeatAnnEpochV3 e.rp e.annS e.annV bias)
        = slices.map (fun sl => annToBeatAnnEpochV3 sl spb pvc bias) := by
  intro slices eps hf
  induction hf with
  | nil => intro _; rfl
  | @cons sl ep slices' eps' h1 _h2 ih =>
    intro hsort
    simp only [List.map_cons]
    rw [perEpoch_eq (hsort _ (List.mem_cons_self _ _)) h1,
      ih (fun sl' hsl' => hsort sl' (List.mem_cons_of_mem _ hsl'))]

/-- **C5**: for a sorted beat sequence, the hour-epoch partition with
window-restricted annotation subsets, run per epoch through the v3 matcher
and concatenated, yields exactly the single whole-sequence v3 run (same
labels, same matched annotations, same final augmented output). -/
theorem C5_epoch_refinement (rpeaks spb pvc : List Int) (bias fs : Nat)
    (winL winR sigLen : Int)
    (hs : rpeaks.Pairwise (· ≤ ·)) (res : MatcherResult)
    (hres : annToBeatAnn rpeaks spb pvc bias fs winL winR sigLen = some res) :
    res = wholeMatch rpeaks spb pvc bias winL winR sigLen := by
  obtain ⟨eps, heps, hpp⟩ := annToBeatAnn_eq hres
  subst hpp
  unfold buildEpochs at heps
  cases hlast : rpeaks.getLast? with
  | none => rw [hlast] at heps; simp at heps
  | some lastR =>
    rw [hlast] at heps
    have hf := mapOpt_some heps
    have hsort := epochSlices_sorted hs bias (fs * 3600) lastR
    rw [stageFlatten hf hsort]
    have h1 : (((epochSlices rpeaks bias (fs * 3600) lastR).map
          (fun sl => annToBeatAnnEpochV3 sl spb pvc bias)).map (·.beat_ann)).flatten
        = rpeaks.map (v3Label bias spb pvc) := by
      rw [List.map_map]
      have hcomp : ((·.beat_ann) ∘ fun sl => annToBeatAnnEpochV3 sl spb pvc bias)
          = fun sl : List Int => sl.map (v3Label bias spb pvc) := rfl
      rw [hcomp, ← List.map_flatten, epochSlices_flatten]
    have h2 : (((epochSlices rpeaks bias (fs * 3600) lastR).map
          (fun sl => annToBeatAnnEpochV3 sl spb pvc bias)).map (·.matchedS)).flatten
        = rpeaks.filterMap (fun r =>
            if v3Label bias spb pvc r = .S then argminD r spb else none) := by
      rw [List.map_map]
      have hcomp : ((·.matchedS) ∘ fun sl => annToBeatAnnEpochV3 sl spb pvc bias)
          = fun sl : List Int => sl.filterMap (fun r =>
              if v3Label bias spb pvc r = .S then argminD r spb else none) := rfl
      rw [hcomp, ← List.filterMap_flatten, epochSlices_flatten]
    have h3 : (((epochSlices rpeaks bias (fs * 3600) lastR).map
          (fun sl => annToBeatAnnEpochV3 sl spb pvc bias)).map (·.matchedV)).flatten
        = rpeaks.filterMap (fun r =>
            if v3Label bias spb pvc r = .V then argminD r pvc else none) := by
      rw [List.map_map]
      have hcomp : ((·.matchedV) ∘ fun sl => annToBeatAnnEpochV3 sl spb pvc bias)
          = fun sl : List Int => sl.filterMap (fun r =>
              if v3Label bias spb pvc r = .V then argminD r pvc else none) := rfl
      rw [hcomp, ← List.filterMap_flatten, epochSlices_flatten]
    rw [h1, h2, h3]
    rfl

/-- **C5** (witness): a two-epoch recording (beats in hours 0 and 2) matched
per epoch agrees with the whole-sequence run. -/
theorem C5_witness :
    (⟨[100, 1500000, 2900000], [Label.N, Label.S, Label.N], [1500030], []⟩ : MatcherResult)
      = wholeMatch [100, 1500000, 2900000] [1500030] [] 40 0 0 3000000 :=
  C5_epoch_refinement [100, 1500000, 2900000] [1500030] [] 40 400 0 0 3000000
    (by decide) _ (by decide)

/-! ## Helper lemmas for the empty-hour-cell failure analysis -/

lemma mapOpt_eq_none {f : List Int → Option Epoch} :
    ∀ {xs : List (List Int)}, mapOpt f xs = none ↔ ∃ x ∈ xs, f x = none := by
  intro xs
  induction xs with
  | nil => simp [mapOpt]
  | cons x xs ih =>
    simp only [mapOpt]
    cases hf : f x with
    | none => simp [hf]
    | some y =>
      cases hm : mapOpt f xs with
      | none =>
        simp only []
        constructor
        · intro _
          rcases ih.mp hm with ⟨x', hx', hfx'⟩
          exact ⟨x', List.mem_cons_of_mem _ hx', hfx'⟩
        · intro _; trivial
      | some ys =>
        simp only []
        constructor
        · intro h; simp at h
        · rintro ⟨x', hx', hfx'⟩
          rcases List.mem_cons.mp hx' with rfl | hx''
          · rw [hf] at hfx'; simp at hfx'
          · have : mapOpt f xs = none := ih.mpr ⟨x', hx'', hfx'⟩
            rw [hm] at this; simp at this

lemma mkEpoch_eq_none {spb pvc : List Int} {bias : Nat} {sl : List Int} :
    mkEpoch spb pvc bias sl = none ↔ sl = [] := by
  cases sl with
  | nil => simp [mkEpoch]
  | cons a t =>
    constructor
    · intro h
      unfold mkEpoch at h
      rw [List.head?_cons] at h
      cases hg : (a :: t).getLast? with
      | none =>
        have := List.getLast?_eq_none_iff.mp hg
        simp at this
      | some lv => rw [hg] at h; simp at h
    · intro h; simp at h

lemma segsFrom_eq_zipMap (xs : List Int) :
    ∀ (ts : List Nat) (s : Nat),
      segsFrom xs s ts = ((s :: ts).zip ts).map (fun p => pySlice xs p.1 p.2) := by
  intro ts
  induction ts with
  | nil => intro s; simp [segsFrom]
  | cons t ts ih =>
    intro s
    simp only [segsFrom, List.zip_cons_cons, List.map_cons]
    rw [ih t]

lemma pySlice_eq_nil {xs : List Int} {s t : Nat} :
    pySlice xs s t = [] ↔ xs.length ≤ s ∨ t ≤ s := by
  unfold pySlice
  rw [List.take_eq_nil_iff]
  constructor
  · rintro (h | h)
    · right; omega
    · left
      have := List.drop_eq_nil_iff.mp h
      omega
  · rintro (h | h)
    · right
      rw [List.drop_eq_nil_iff]
      omega
    · left; omega

lemma zip_tail_get : ∀ (L : List Nat) (i : Nat) (h : i + 1 < L.length),
    (L.get ⟨i, by omega⟩, L.get ⟨i + 1, h⟩) ∈ L.zip L.tail := by
  intro L
  induction L with
  | nil => intro i h; simp at h
  | cons a t ih =>
    intro i h
    cases t with
    | nil => simp at h
    | cons b t' =>
      simp only [List.tail_cons, List.zip_cons_cons]
      cases i with
      | zero => simp
      | succ i' =>
        have hmem := ih i' (by simpa using h)
        right
        simpa using hmem

lemma zip_tail_mem : ∀ {L : List Nat} {u v : Nat}, (u, v) ∈ L.zip L.tail →
    ∃ i, ∃ h : i + 1 < L.length,
      u = L.get ⟨i, by omega⟩ ∧ v = L.get ⟨i + 1, h⟩ := by
  intro L
  induction L with
  | nil => intro u v h; simp at h
  | cons a t ih =>
    intro u v h
    cases t with
    | nil => simp at h
    | cons b t' =>
      simp only [List.tail_cons, List.zip_cons_cons, List.mem_cons] at h
      rcases h with h | h
      · simp only [Prod.mk.injEq] at h
        exact ⟨0, by simp, by simp [h.1], by simp [h.2]⟩
      · have h' : (u, v) ∈ (b :: t').zip (b :: t').tail := by simpa using h
        rcases ih h' with ⟨i, hlt, hu, hv⟩
        exact ⟨i + 1, by simpa using hlt, by simpa using hu, by simpa using hv⟩

lemma countBelow_split {l : List Int} {m1 m2 : Int} (h : m1 ≤ m2) :
    countBelow l m2 = countBelow l m1
      + (l.filter (fun r => decide (m1 ≤ r ∧ r < m2))).length := by
  unfold countBelow
  induction l with
  | nil => simp
  | cons a t ih =>
    simp only [List.filter_cons]
    by_cases h1 : a < m1
    · rw [if_pos (show decide (a < m2) = true by simp; omega),
        if_pos (by simpa using h1), if_neg (by simp; omega)]
      simp only [List.length_cons]
      omega
    · by_cases h2 : a < m2
      · rw [if_pos (by simpa using h2), if_neg (by simpa using h1),
          if_pos (by simp; omega)]
        simp only [List.length_cons]
        omega
      · rw [if_neg (by simpa using h2), if_neg (by simpa using h1),
          if_neg (by simp; omega)]
        exact ih

lemma countBelow_lt_length {l : List Int} {m x : Int} (hx : x ∈ l) (hxm : ¬ x < m) :
    countBelow l m < l.length := by
  rcases Nat.lt_or_ge (countBelow l m) l.length with h | h
  · exact h
  · exfalso
    have heq : countBelow l m = l.length := le_antisymm (countBelow_le_length l m) h
    unfold countBelow at heq
    rw [← List.countP_eq_length_filter] at heq
    have := List.countP_eq_length.mp heq x hx
    simp at this
    exact hxm this

lemma rangeMapGet (c : Nat → Nat) (k : Nat) :
    ∀ m, m < k → ((List.range' 1 k).map c)[m]? = some (c (m + 1)) := by
  intro m hm
  have hm' : m < ((List.range' 1 k).map c).length := by simpa using hm
  rw [List.getElem?_eq_getElem hm']
  simp only [List.getElem_map, List.getElem_range']
  congr 2
  omega

/-- The epoch construction produces an empty beat slice exactly when some
interior hour cell `[j*oh, (j+1)*oh)` (with both boundaries among the split
indices, i.e. `1 ≤ j` and `j + 2 ≤ q`) contains no beat. -/
lemma slices_empty_iff (rpeaks : List Int) (bias oh : Nat) (lastR : Int)
    (hne : rpeaks ≠ []) (hbias : bias < oh)
    (hlast : rpeaks.getLast? = some lastR) (hlpos : 0 ≤ lastR) :
    (∃ sl ∈ epochSlices rpeaks bias oh lastR, sl = []) ↔
      ∃ j, 1 ≤ j ∧ j + 2 ≤ ((lastR + (bias : Int)).toNat) / oh ∧
        ∀ r ∈ rpeaks, ¬(((j * oh : Nat) : Int) ≤ r
          ∧ r < (((j + 1) * oh : Nat) : Int)) := by
  have hoh : 0 < oh := by omega
  have hlen : 0 < rpeaks.length := List.length_pos.mpr hne
  have hlmem : lastR ∈ rpeaks := mem_of_getLast?_eq hlast
  set q := ((lastR + (bias : Int)).toNat) / oh with hqdef
  set c := fun i => countBelow rpeaks ((i * oh : Nat) : Int) + 1 with hcdef
  have hqmul : q * oh ≤ lastR.toNat + bias := by
    have h1 : q * oh ≤ (lastR + (bias : Int)).toNat := by
      rw [hqdef]; exact Nat.div_mul_le_self _ _
    omega
  have hlastlb : ∀ i, i + 1 ≤ q → i * oh < lastR.toNat := by
    intro i hi
    have h2 : (i + 1) * oh ≤ q * oh := Nat.mul_le_mul_right oh hi
    rw [Nat.succ_mul] at h2
    omega
  have hcle : ∀ i, i + 1 ≤ q → c i ≤ rpeaks.length := by
    intro i hi
    have hcb := countBelow_lt_length (l := rpeaks) (m := ((i * oh : Nat) : Int)) hlmem
      (by have := hlastlb i hi; omega)
    simp only [hcdef]
    omega
  have hmono : ∀ i, c i ≤ c (i + 1) := by
    intro i
    simp only [hcdef]
    have hc := @countBelow_mono rpeaks ((i * oh : Nat) : Int)
      (((i + 1) * oh : Nat) : Int)
      (by exact_mod_cast Nat.mul_le_mul_right oh (by omega : i ≤ i + 1))
    omega
  have hcell_iff : ∀ j : Nat,
      (c j = c (j + 1) ↔
        ∀ r ∈ rpeaks, ¬(((j * oh : Nat) : Int) ≤ r
          ∧ r < (((j + 1) * oh : Nat) : Int))) := by
    intro j
    have hm : ((j * oh : Nat) : Int) ≤ (((j + 1) * oh : Nat) : Int) := by
      exact_mod_cast Nat.mul_le_mul_right oh (by omega : j ≤ j + 1)
    have hsplit := countBelow_split (l := rpeaks) hm
    simp only [hcdef]
    constructor
    · intro heq r hr hmemr
      have hlen0 : (rpeaks.filter (fun r => decide (((j * oh : Nat) : Int) ≤ r
          ∧ r < (((j + 1) * oh : Nat) : Int)))).length = 0 := by omega
      have hnil := List.length_eq_zero.mp hlen0
      have hnr := List.filter_eq_nil_iff.mp hnil r hr
      simp only [decide_eq_true_eq] at hnr
      exact hnr ⟨hmemr.1, hmemr.2⟩
    · intro hno
      have hnil : rpeaks.filter (fun r => decide (((j * oh : Nat) : Int) ≤ r
          ∧ r < (((j + 1) * oh : Nat) : Int))) = [] := by
        rw [List.filter_eq_nil_iff]
        intro a ha
        simp only [decide_eq_true_eq]
        exact hno a ha
      rw [hnil] at hsplit
      simp only [List.length_nil] at hsplit
      omega
  have hmid : ∀ j, 1 ≤ j → j + 2 ≤ q →
      (rpeaks.length ≤ c j ∨ c (j + 1) ≤ c j) → c j = c (j + 1) := by
    intro j _hj1 hj2 hor
    have h1 := hcle j (by omega)
    have h2 := hcle (j + 1) (by omega)
    have h3 := hmono j
    omega
  set R := (List.range' 1 (q - 1)).map c with hRdef
  have hRlen : R.length = q - 1 := by rw [hRdef]; simp
  have hRget : ∀ m, m < q - 1 → R[m]? = some (c (m + 1)) := by
    intro m hm
    rw [hRdef]
    exact rangeMapGet c (q - 1) m hm
  have hbase : hourBase rpeaks bias oh lastR = 0 :: R := by
    rw [hRdef, hcdef, hqdef]
    rfl
  -- generic e1 bridge: `get` of the zipped list vs `getElem?`
  have hget? : ∀ (L : List Nat) (i : Nat) (h : i < L.length),
      L[i]? = some (L.get ⟨i, h⟩) := by
    intro L i h
    rw [List.getElem?_eq_getElem h, List.get_eq_getElem]
  by_cases hcond : (hourBase rpeaks bias oh lastR).length = 1
      ∨ (hourBase rpeaks bias oh lastR).getLastD 0 < rpeaks.length
  · -- branch with the tail slice appended
    have hsplits : hourSplits rpeaks bias oh lastR = 0 :: (R ++ [rpeaks.length]) := by
      unfold hourSplits
      rw [if_pos hcond, hbase]
      rfl
    have hslices : epochSlices rpeaks bias oh lastR
        = (((0 : Nat) :: (R ++ [rpeaks.length])).zip (R ++ [rpeaks.length])).map
            (fun p => pySlice rpeaks p.1 p.2) := by
      unfold epochSlices
      rw [hsplits]
      simp only [List.tail_cons]
      exact segsFrom_eq_zipMap rpeaks _ 0
    have htsget : ∀ m, m < q - 1 → (R ++ [rpeaks.length])[m]? = some (c (m + 1)) := by
      intro m hm
      rw [List.getElem?_append_left (by rw [hRlen]; omega)]
      exact hRget m hm
    have htslast : (R ++ [rpeaks.length])[q - 1]? = some rpeaks.length := by
      have : q - 1 = R.length := hRlen.symm
      rw [this, List.getElem?_append_right (le_refl _)]
      simp
    rw [hslices]
    constructor
    · rintro ⟨sl, hsl, rfl⟩
      rcases List.mem_map.mp hsl with ⟨⟨u, v⟩, hp, hfp⟩
      rcases zip_tail_mem (L := 0 :: (R ++ [rpeaks.length])) (by simpa using hp)
        with ⟨i, hilt, hu, hv⟩
      have hlt' : i < (R ++ [rpeaks.length]).length := by
        simp only [List.length_cons] at hilt
        omega
      have htsl : (R ++ [rpeaks.length]).length = q - 1 + 1 := by
        simp [hRlen]
      rcases pySlice_eq_nil.mp hfp with hev | hev
      all_goals {
        cases i with
        | zero =>
          exfalso
          simp only [List.get_eq_getElem, List.getElem_cons_zero] at hu
          have hv? : (R ++ [rpeaks.length])[0]? = some v := by
            rw [hget? _ 0 hlt']
            congr 1
            rw [hv]
            rw [List.get_eq_getElem, List.get_eq_getElem, List.getElem_cons_succ]
          by_cases hq2 : 1 ≤ q - 1
          · rw [htsget 0 hq2] at hv?
            simp only [Option.some.injEq] at hv?
            have hc0 : 1 ≤ c (0 + 1) := by simp [hcdef]
            omega
          · have hq1 : q - 1 = 0 := by omega
            rw [hq1] at htslast
            rw [htslast] at hv?
            simp only [Option.some.injEq] at hv?
            omega
        | succ m =>
          have hmlt : m + 1 < (R ++ [rpeaks.length]).length := hlt'
          have hmlt0 : m < (R ++ [rpeaks.length]).length := by omega
          have hu? : (R ++ [rpeaks.length])[m]? = some u := by
            rw [hget? _ m hmlt0]
            congr 1
            rw [hu]
            rw [List.get_eq_getElem, List.get_eq_getElem, List.getElem_cons_succ]
          have hv? : (R ++ [rpeaks.length])[m + 1]? = some v := by
            rw [hget? _ (m + 1) hmlt]
            congr 1
            rw [hv]
            rw [List.get_eq_getElem, List.get_eq_getElem, List.getElem_cons_succ]
          have hmq : m < q - 1 := by
            rw [htsl] at hmlt
            omega
          have huval : u = c (m + 1) := by
            rw [htsget m hmq] at hu?
            simp only [Option.some.injEq] at hu?
            omega
          by_cases hm1q : m + 1 < q - 1
          · have hvval : v = c (m + 1 + 1) := by
              rw [htsget (m + 1) hm1q] at hv?
              simp only [Option.some.injEq] at hv?
              omega
            refine ⟨m + 1, by omega, by omega, ?_⟩
            refine (hcell_iff (m + 1)).mp (hmid (m + 1) (by omega) (by omega) ?_)
            omega
          · exfalso
            have hmeq : m + 1 = q - 1 := by
              rw [htsl] at hmlt
              omega
            have hvval : v = rpeaks.length := by
              rw [hmeq] at hv?
              rw [htslast] at hv?
              simp only [Option.some.injEq] at hv?
              omega
            have hRne : R ≠ [] := by
              intro hR0
              have := congrArg List.length hR0
              rw [hRlen] at this
              simp at this
              omega
            have hcond2 : (hourBase rpeaks bias oh lastR).getLastD 0 < rpeaks.length := by
              rcases hcond with h1 | h2
              · exfalso
                rw [hbase] at h1
                simp only [List.length_cons] at h1
                have hr0 : R.length = 0 := by omega
                exact hRne (List.length_eq_zero.mp hr0)
              · exact h2
            have hlastval : (hourBase rpeaks bias oh lastR).getLastD 0 = c (q - 1) := by
              rw [hbase, List.getLastD_cons, List.getLastD_eq_getLast?,
                List.getLast?_eq_getLast_of_ne_nil hRne]
              simp only [Option.getD_some]
              rw [List.getLast_eq_getElem]
              have hRlast : R[R.length - 1]? = some (c (R.length - 1 + 1)) := by
                rw [hRget (R.length - 1) (by rw [hRlen]; omega)]
              rw [List.getElem?_eq_getElem (by omega : R.length - 1 < R.length)] at hRlast
              simp only [Option.some.injEq] at hRlast
              rw [hRlast]
              congr 1
              rw [hRlen]
              omega
            rw [hlastval] at hcond2
            have huval2 : u = c (q - 1) := by
              rw [huval]
              congr 1
            omega
      }
    · rintro ⟨j, hj1, hj2, hcell⟩
      have hcc := (hcell_iff j).mpr hcell
      obtain ⟨m, rfl⟩ : ∃ m, j = m + 1 := ⟨j - 1, by omega⟩
      have hjlt : m + 1 + 1 < (0 :: (R ++ [rpeaks.length])).length := by
        simp only [List.length_cons, List.length_append, List.length_singleton, hRlen]
        omega
      have hmemz := zip_tail_get (0 :: (R ++ [rpeaks.length])) (m + 1) hjlt
      have hu? : (R ++ [rpeaks.length])[m]? =
          some ((0 :: (R ++ [rpeaks.length])).get ⟨m + 1, by omega⟩) := by
        rw [hget? _ m (by simp only [List.length_cons] at hjlt; omega)]
        congr 1
      have hv? : (R ++ [rpeaks.length])[m + 1]? =
          some ((0 :: (R ++ [rpeaks.length])).get ⟨m + 1 + 1, hjlt⟩) := by
        rw [hget? _ (m + 1) (by simp only [List.length_cons] at hjlt; omega)]
        congr 1
      rw [htsget m (by omega)] at hu?
      rw [htsget (m + 1) (by omega)] at hv?
      simp only [Option.some.injEq] at hu? hv?
      refine ⟨pySlice rpeaks ((0 :: (R ++ [rpeaks.length])).get ⟨m + 1, by omega⟩)
          ((0 :: (R ++ [rpeaks.length])).get ⟨m + 1 + 1, hjlt⟩), ?_, ?_⟩
      · exact List.mem_map_of_mem _ (by simpa using hmemz)
      · rw [pySlice_eq_nil, ← hu?, ← hv?]
        right
        have hcc2 : c (m + 1) = c (m + 1 + 1) := hcc
        omega
  · -- branch without the appended tail slice
    push_neg at hcond
    have hRne : R ≠ [] := by
      intro hR0
      apply hcond.1
      rw [hbase, hR0]
      rfl
    have hRpos : 1 ≤ q - 1 := by
      have := List.length_pos.mpr hRne
      rw [hRlen] at this
      omega
    have hsplits : hourSplits rpeaks bias oh lastR = 0 :: R := by
      unfold hourSplits
      rw [if_neg, hbase]
      push_neg
      exact hcond
    have hslices : epochSlices rpeaks bias oh lastR
        = (((0 : Nat) :: R).zip R).map (fun p => pySlice rpeaks p.1 p.2) := by
      unfold epochSlices
      rw [hsplits]
      simp only [List.tail_cons]
      exact segsFrom_eq_zipMap rpeaks _ 0
    rw [hslices]
    constructor
    · rintro ⟨sl, hsl, rfl⟩
      rcases List.mem_map.mp hsl with ⟨⟨u, v⟩, hp, hfp⟩
      rcases zip_tail_mem (L := 0 :: R) (by simpa using hp) with ⟨i, hilt, hu, hv⟩
      have hlt' : i < R.length := by
        simp only [List.length_cons] at hilt
        omega
      rcases pySlice_eq_nil.mp hfp with hev | hev
      all_goals {
        cases i with
        | zero =>
          exfalso
          simp only [List.get_eq_getElem, List.getElem_cons_zero] at hu
          have hv? : R[0]? = some v := by
            rw [hget? _ 0 hlt']
            congr 1
            rw [hv]
            rw [List.get_eq_getElem, List.get_eq_getElem, List.getElem_cons_succ]
          rw [hRget 0 (by rw [hRlen] at hlt'; omega)] at hv?
          simp only [Option.some.injEq] at hv?
          have hc0 : 1 ≤ c (0 + 1) := by simp [hcdef]
          omega
        | succ m =>
          have hmlt : m + 1 < R.length := hlt'
          have hu? : R[m]? = some u := by
            rw [hget? _ m (by omega)]
            congr 1
            rw [hu]
            rw [List.get_eq_getElem, List.get_eq_getElem, List.getElem_cons_succ]
          have hv? : R[m + 1]? = some v := by
            rw [hget? _ (m + 1) hmlt]
            congr 1
            rw [hv]
            rw [List.get_eq_getElem, List.get_eq_getElem, List.getElem_cons_succ]
          rw [hRget m (by rw [hRlen] at hmlt; omega)] at hu?
          rw [hRget (m + 1) (by rw [hRlen] at hmlt; omega)] at hv?
          simp only [Option.some.injEq] at hu? hv?
          refine ⟨m + 1, by omega, by rw [hRlen] at hmlt; omega, ?_⟩
          refine (hcell_iff (m + 1)).mp
            (hmid (m + 1) (by omega) (by rw [hRlen] at hmlt; omega) ?_)
          omega
      }
    · rintro ⟨j, hj1, hj2, hcell⟩
      have hcc := (hcell_iff j).mpr hcell
      obtain ⟨m, rfl⟩ : ∃ m, j = m + 1 := ⟨j - 1, by omega⟩
      have hjlt : m + 1 + 1 < (0 :: R).length := by
        simp only [List.length_cons, hRlen]
        omega
      have hmemz := zip_tail_get (0 :: R) (m + 1) hjlt
      have hu? : R[m]? = some ((0 :: R).get ⟨m + 1, by omega⟩) := by
        rw [hget? _ m (by simp only [List.length_cons] at hjlt; omega)]
        congr 1
      have hv? : R[m + 1]? = some ((0 :: R).get ⟨m + 1 + 1, hjlt⟩) := by
        rw [hget? _ (m + 1) (by simp only [List.length_cons] at hjlt; omega)]
        congr 1
      rw [hRget m (by omega)] at hu?
      rw [hRget (m + 1) (by omega)] at hv?
      simp only [Option.some.injEq] at hu? hv?
      refine ⟨pySlice rpeaks ((0 :: R).get ⟨m + 1, by omega⟩)
          ((0 :: R).get ⟨m + 1 + 1, hjlt⟩), ?_, ?_⟩
      · exact List.mem_map_of_mem _ (by simpa using hmemz)
      · rw [pySlice_eq_nil, ← hu?, ← hv?]
        right
        have hcc2 : c (m + 1) = c (m + 1 + 1) := hcc
        omega


/-- C10: the matcher's hour-based epoch partition is total exactly when no
interior hour cell of the partition is beatless.  `annToBeatAnn` returns
`none` (the `IndexError` of `p['rpeaks'][0]` on an empty beat slice) iff
some hour index `j` with `1 ≤ j` and `j + 2 ≤ (last_beat + bias) / (fs*3600)`
has no detected beat in the half-open span `[j*fs*3600, (j+1)*fs*3600)`;
under the precondition that every such cell holds a beat, the function
completes. -/
theorem C10_empty_hour_cell (rpeaks spb pvc : List Int) (bias fs : Nat)
    (winL winR sigLen : Int) (lastR : Int)
    (hne : rpeaks ≠ []) (hbias : bias < fs * 3600)
    (hlast : rpeaks.getLast? = some lastR) (hlpos : 0 ≤ lastR) :
    annToBeatAnn rpeaks spb pvc bias fs winL winR sigLen = none ↔
      ∃ j, 1 ≤ j ∧ j + 2 ≤ ((lastR + (bias : Int)).toNat) / (fs * 3600) ∧
        ∀ r ∈ rpeaks, ¬(((j * (fs * 3600) : Nat) : Int) ≤ r
          ∧ r < (((j + 1) * (fs * 3600) : Nat) : Int)) := by
  unfold annToBeatAnn
  rw [Option.map_eq_none']
  unfold buildEpochs
  rw [hlast]
  show mapOpt (mkEpoch spb pvc bias)
      (epochSlices rpeaks bias (fs * 3600) lastR) = none ↔ _
  rw [mapOpt_eq_none]
  constructor
  · rintro ⟨sl, hsl, hnone⟩
    exact (slices_empty_iff rpeaks bias (fs * 3600) lastR hne hbias
      hlast hlpos).mp ⟨sl, hsl, mkEpoch_eq_none.mp hnone⟩
  · intro h
    rcases (slices_empty_iff rpeaks bias (fs * 3600) lastR hne hbias
        hlast hlpos).mpr h with ⟨sl, hsl, hnil⟩
    exact ⟨sl, hsl, mkEpoch_eq_none.mpr hnil⟩

/-- Concrete run of `C10_empty_hour_cell`: with beats at samples 0 and
4500000 (fs = 400, bias 40), hour cell 1 = [1440000, 2880000) is beatless
and the matcher fails with `none`. -/
theorem C10_witness :
    annToBeatAnn [0, 4500000] [] [] 40 400 100 100 5000000 = none :=
  (C10_empty_hour_cell [0, 4500000] [] [] 40 400 100 100 5000000 4500000
      (by decide) (by decide) (by decide) (by decide)).mpr
    ⟨1, by decide, by decide, by decide⟩

end CPSC2020
